import Mathlib

/-!
# Niš Transit Finder: graph construction, Dijkstra search and route lookup

A shallow embedding of `src/Code.js` (class `Graph`, `buildGraph`, `findRoute`) and the
proofs of the properties its specification states.

Modelling conventions.

* Stop ids are natural numbers.  A property key of a JavaScript object is the decimal
  string of an id; the string is identified with the number it spells, so `toString`
  and `parseInt` on keys are the identity (as they are on the integers below `10^21`).
* A JavaScript object used as a map and enumerated with `for ... in` is a list of
  entries in property enumeration order: array-index keys (below `2^32 - 1`) in
  ascending numeric order first, every other key in insertion order after them.
* `distances` and `previous` are objects that are only read by key; they are functions
  from keys to optional values, `none` standing for `undefined`.
* Numbers are exact rationals extended by `Infinity` (`⊤`).  `undefined` and `NaN`
  are both `none`: every comparison with either is false.  On the catalog data, whose
  weights are integers halved, floating-point arithmetic is exact as well.
* Loops that are not bounded by a list carry fuel and return `none` when it runs out;
  `dijkstra_total` shows that this never happens on a constructed graph.
* The simulated network delay of `findRoute` is not modelled; the React state written
  by the setters is passed explicitly, and the `catch` branch is unreachable because
  nothing in the handler throws.

The file has three parts: the definitions (the program, then the notions the properties
are stated with, then the loop invariants), the lemmas, and the properties C1 to C10.
-/

namespace NisTransit

/-! ## JavaScript objects with integer keys -/

/-- An array index is an integer key below `2^32 - 1`; such keys are enumerated first,
in ascending order. -/
def isArrayIndex (k : Nat) : Bool := decide (k < 4294967295)

/-- Entries of an object, in enumeration order. -/
abbrev Obj (α : Type) := List (Nat × α)

/-- The keys of an object in `for ... in` order. -/
def Obj.keys {α : Type} (o : Obj α) : List Nat := o.map Prod.fst

/-- Property read `o[k]`; `none` is `undefined`. -/
def Obj.get {α : Type} (o : Obj α) (k : Nat) : Option α := List.lookup k o

/-- Creation of a property that the object does not have yet: an array index goes before
the first entry that is not an array index or has a larger key, any other key goes last. -/
def Obj.insertNew {α : Type} (k : Nat) (v : α) : Obj α → Obj α
  | [] => [(k, v)]
  | e :: rest =>
    if isArrayIndex k = true ∧ (isArrayIndex e.1 = false ∨ k < e.1) then (k, v) :: e :: rest
    else e :: Obj.insertNew k v rest

/-- Property write `o[k] = v`: an existing property keeps its place. -/
def Obj.set {α : Type} (o : Obj α) (k : Nat) (v : α) : Obj α :=
  if (o.get k).isSome then o.map (fun e => if e.1 = k then (k, v) else e)
  else Obj.insertNew k v o

/-! ## class Graph -/

/-- The field `vertices`: vertex key to (neighbour key to weight). -/
structure Graph where
  vertices : Obj (Obj ℚ)
deriving DecidableEq

namespace Graph

/-- The constructor: `this.vertices = {}`. -/
def empty : Graph := ⟨[]⟩

/-- Method `addVertex(vertex)`. An object, even an empty one, is truthy. -/
def addVertex (g : Graph) (vertex : Nat) : Graph :=
  match g.vertices.get vertex with
  | none => ⟨g.vertices.set vertex []⟩
  | some _ => g

/-- The assignment `this.vertices[a][b] = w` (the inner object exists when `addEdge`
executes it). -/
def setWeight (g : Graph) (a b : Nat) (w : ℚ) : Graph :=
  ⟨g.vertices.map (fun e => if e.1 = a then (e.1, e.2.set b w) else e)⟩

/-- Method `addEdge(vertex1, vertex2, weight)`. -/
def addEdge (g : Graph) (vertex1 vertex2 : Nat) (weight : ℚ) : Graph :=
  (((g.addVertex vertex1).addVertex vertex2).setWeight vertex1 vertex2 weight).setWeight
    vertex2 vertex1 weight

/-- The neighbour object `this.vertices[u]` (empty when `u` is no vertex). -/
def adj (g : Graph) (u : Nat) : Obj ℚ := (g.vertices.get u).getD []

/-- The stored weight `this.vertices[u][v]`. -/
def weight (g : Graph) (u v : Nat) : Option ℚ := (g.vertices.get u).bind (fun a => a.get v)

end Graph

/-! ## Graph.dijkstra -/

/-- A distance: a finite number or `Infinity`. -/
abbrev Dist := WithTop ℚ

/-- The local variables of `dijkstra`. -/
structure DState where
  distances : Nat → Option Dist
  previous : Nat → Option Nat
  visited : List Nat
  queue : List Nat

/-- The write `m[k] = v` on a map that is only read by key. -/
def setKey {α : Type} (m : Nat → Option α) (k : Nat) (v : α) : Nat → Option α :=
  fun x => if x = k then some v else m x

/-- The comparison `a < b` of two numbers; false when either is `undefined` or `NaN`. -/
def jsLt : Option Dist → Option Dist → Bool
  | some x, some y => decide (x < y)
  | _, _ => false

/-- The sum `a + w` of a distance and a weight. -/
def jsAdd (a : Option Dist) (w : ℚ) : Option Dist := a.map (fun x => x + (w : Dist))

/-- The initialisation loop over `this.vertices`. -/
def initState (g : Graph) (start : Nat) : DState :=
  g.vertices.keys.foldl
    (fun st vertex =>
      { st with
        distances := setKey st.distances vertex (if vertex = start then 0 else ⊤)
        queue := st.queue ++ [vertex] })
    ⟨fun _ => none, fun _ => none, [], []⟩

/-- The callback of `queue.reduce`. -/
def minStep (distances : Nat → Option Dist) (min vertex : Nat) : Nat :=
  if jsLt (distances vertex) (distances min) = true then vertex else min

/-- The call `queue.reduce(...)` without initial value; `none` on the empty queue,
where the loop does not run. -/
def minVertex (distances : Nat → Option Dist) : List Nat → Option Nat
  | [] => none
  | v :: rest => some (rest.foldl (minStep distances) v)

/-- One pass of the body of the neighbour loop. -/
def relax (minV : Nat) (st : DState) (e : Nat × ℚ) : DState :=
  if e.1 ∈ st.visited then st
  else
    match jsAdd (st.distances minV) e.2 with
    | none => st
    | some alt =>
      if jsLt (some alt) (st.distances e.1) = true then
        { st with distances := setKey st.distances e.1 alt
                  previous := setKey st.previous e.1 minV }
      else st

/-- The statements `queue.splice(queue.indexOf(minVertex), 1); visited.add(minVertex)`. -/
def settle (st : DState) (minV : Nat) : DState :=
  { st with queue := st.queue.erase minV, visited := st.visited.insert minV }

/-- The loop body after the `break` test: the neighbour loop. -/
def relaxAll (g : Graph) (st : DState) (minV : Nat) : DState :=
  (g.adj minV).foldl (relax minV) st

/-- The main `while (queue.length > 0)` loop; `none` if more than `fuel` iterations
would be needed. -/
def loop (g : Graph) (endV : Nat) : Nat → DState → Option DState
  | 0, st =>
    match st.queue with
    | [] => some st
    | _ :: _ => none
  | fuel + 1, st =>
    match minVertex st.distances st.queue with
    | none => some st
    | some minV =>
      if minV = endV then some (settle st minV)
      else loop g endV fuel (relaxAll g (settle st minV) minV)

/-- The path reconstruction loop `while (current !== undefined)`; `none` if more than
`fuel` iterations would be needed. -/
def walkBack (previous : Nat → Option Nat) : Nat → Option Nat → List Nat → Option (List Nat)
  | _, none, path => some path
  | 0, some _, _ => none
  | fuel + 1, some current, path => walkBack previous fuel (previous current) (current :: path)

/-- The object returned by `dijkstra`. -/
structure Result where
  distance : Option Dist
  path : List Nat
deriving DecidableEq

/-- Method `dijkstra(start, end)`. The main loop runs at most once per vertex and the
reconstruction is given one more step than there are vertices. -/
def Graph.dijkstra (g : Graph) (start endV : Nat) : Option Result :=
  match loop g endV g.vertices.length (initState g start) with
  | none => none
  | some st =>
    match walkBack st.previous (g.vertices.length + 1) (some endV) [] with
    | none => none
    | some path => some ⟨st.distances endV, path⟩

/-! ## Catalog data -/

/-- An entry of `mockBusStops`. -/
structure Stop where
  id : Nat
  name : String
  lat : ℚ
  lng : ℚ
  lines : List String
deriving DecidableEq

/-- An entry of `mockRoutes`. -/
structure BusRoute where
  line : String
  stops : List Nat
  duration : ℚ
deriving DecidableEq

/-- The constant `mockBusStops`. -/
def mockBusStops : List Stop :=
  [ ⟨1, "Trg Kralja Milana", 43.3209, 21.8958, ["1", "2", "3", "7", "11"]⟩,
    ⟨2, "Tvrđava", 43.3253, 21.8969, ["2", "4", "12"]⟩,
    ⟨3, "Centar", 43.3181, 21.8945, ["1", "3", "5", "8"]⟩,
    ⟨4, "Železnička stanica", 43.3167, 21.9069, ["4", "6", "9", "11"]⟩,
    ⟨5, "Univerzitet", 43.3142, 21.8978, ["5", "7", "10"]⟩,
    ⟨6, "Čair", 43.3319, 21.9089, ["6", "8", "12"]⟩,
    ⟨7, "Pantelej", 43.3089, 21.9167, ["9", "10", "13"]⟩,
    ⟨8, "Dušanovac", 43.3056, 21.8769, ["1", "13", "14"]⟩,
    ⟨9, "Bubanj", 43.3378, 21.8856, ["2", "14", "15"]⟩,
    ⟨10, "Medijana", 43.2989, 21.9025, ["15", "16", "17"]⟩ ]

/-- The constant `mockRoutes`. -/
def mockRoutes : List BusRoute :=
  [ ⟨"2", [1, 2, 3], 25⟩,
    ⟨"3", [1, 3, 4], 30⟩,
    ⟨"7", [1, 2, 5], 35⟩,
    ⟨"9", [1, 3, 6], 40⟩,
    ⟨"14", [1, 4, 7], 45⟩,
    ⟨"5", [3, 6, 9], 20⟩,
    ⟨"11", [4, 7, 8], 35⟩,
    ⟨"15", [2, 8, 10], 50⟩ ]

/-! ## buildGraph and findRoute -/

/-- The body of the `for` loop of `buildGraph` at index `i` of `route`. -/
def addSegment (route : BusRoute) (g : Graph) (i : Nat) : Graph :=
  g.addEdge (route.stops.getD i 0) (route.stops.getD (i + 1) 0)
    (route.duration / ((route.stops.length : ℚ) - 1))

/-- The callback of `mockRoutes.forEach`: the loop `for (i = 0; i < stops.length - 1; i++)`. -/
def addRoute (g : Graph) (route : BusRoute) : Graph :=
  (List.range (route.stops.length - 1)).foldl (addSegment route) g

/-- Function `buildGraph`, over the list of lines it iterates. -/
def buildGraph (routes : List BusRoute) : Graph :=
  routes.foldl addRoute Graph.empty

/-- The value given to `setRoute`. An id that `find` does not resolve gives `undefined`
(`none`) in `stops`. -/
structure RouteInfo where
  stops : List (Option Stop)
  duration : Option (WithTop ℤ)
  transfers : ℤ
deriving DecidableEq

/-- The React state of the component. A select value is `''` (`none`) or a stop id. -/
structure UIState where
  fromStop : Option Nat
  toStop : Option Nat
  route : Option RouteInfo
  loading : Bool
  error : String
deriving DecidableEq

/-- The call `Math.round(x)`: the nearest integer, halves going up; `NaN` for `undefined`. -/
def mathRound (x : Option Dist) : Option (WithTop ℤ) :=
  x.map (WithTop.map (fun q : ℚ => ⌊q + 1 / 2⌋))

/-- The expression `result.path.map(stopId => mockBusStops.find(stop => stop.id === stopId))`. -/
def resolveStops (busStops : List Stop) (path : List Nat) : List (Option Stop) :=
  path.map (fun stopId => busStops.find? (fun stop => decide (stop.id = stopId)))

/-- Function `findRoute`, over the catalog constants it reads; the result is the state
after the handler has finished (`none` only if the search ran out of fuel). -/
def findRoute (busStops : List Stop) (routes : List BusRoute) (s : UIState) : Option UIState :=
  match s.fromStop, s.toStop with
  | some fromStop, some toStop =>
    if fromStop = toStop then
      some { s with error := "Departure and destination cannot be the same" }
    else
      match (buildGraph routes).dijkstra fromStop toStop with
      | none => none
      | some result =>
        if result.distance = some ⊤ then
          some { s with
            loading := false
            error := "No route found between selected stops"
            route := none }
        else
          let routeStops := resolveStops busStops result.path
          some { s with
            loading := false
            error := ""
            route := some
              { stops := routeStops
                duration := mathRound result.distance
                transfers := (routeStops.length : ℤ) - 2 } }
  | _, _ => some { s with error := "Please select both departure and destination stops" }

/-- The two lines of the concrete scenario. -/
def scenarioRoutes : List BusRoute := [⟨"2", [1, 2, 3], 25⟩, ⟨"3", [1, 3, 4], 30⟩]

/-! ## Notions used to state the properties -/

/-- A call of one of the two mutating methods of `Graph`. -/
inductive Op where
  | addVertex (vertex : Nat)
  | addEdge (vertex1 vertex2 : Nat) (weight : ℚ)
deriving DecidableEq

/-- The effect of one method call. -/
def Graph.apply (g : Graph) : Op → Graph
  | Op.addVertex vertex => g.addVertex vertex
  | Op.addEdge vertex1 vertex2 weight => g.addEdge vertex1 vertex2 weight

/-- The graph obtained from `new Graph()` by a sequence of method calls. -/
def Graph.build (ops : List Op) : Graph := ops.foldl Graph.apply Graph.empty

/-- The ids that occur as a vertex argument of a call. -/
def Op.ids : Op → List Nat
  | Op.addVertex vertex => [vertex]
  | Op.addEdge vertex1 vertex2 _ => [vertex1, vertex2]

/-- The weights passed to `addEdge` are strictly positive. -/
def Op.Positive : Op → Prop
  | Op.addVertex _ => True
  | Op.addEdge _ _ weight => 0 < weight

instance (op : Op) : Decidable op.Positive :=
  match op with
  | Op.addVertex _ => isTrue trivial
  | Op.addEdge _ _ weight => inferInstanceAs (Decidable (0 < weight))

/-- Vertex membership: `v` is a key of `vertices`. -/
def Graph.Mem (g : Graph) (v : Nat) : Prop := v ∈ g.vertices.keys

instance (g : Graph) (v : Nat) : Decidable (g.Mem v) :=
  inferInstanceAs (Decidable (v ∈ g.vertices.keys))

/-- Consecutive elements of `p` are joined by a stored edge. -/
def Graph.IsWalk (g : Graph) : List Nat → Prop
  | [] => True
  | [_] => True
  | u :: v :: rest => (g.weight u v).isSome = true ∧ Graph.IsWalk g (v :: rest)

/-- Walks can be checked edge by edge. -/
def Graph.decidableIsWalk (g : Graph) : (p : List Nat) → Decidable (g.IsWalk p)
  | [] => isTrue trivial
  | [_] => isTrue trivial
  | u :: v :: rest =>
    match Graph.decidableIsWalk g (v :: rest) with
    | isTrue h =>
      if hw : (g.weight u v).isSome = true then isTrue ⟨hw, h⟩
      else isFalse (fun hc => hw hc.1)
    | isFalse h => isFalse (fun hc => h hc.2)

instance (g : Graph) (p : List Nat) : Decidable (g.IsWalk p) := Graph.decidableIsWalk g p

/-- The sum of the stored weights along `p`. -/
def Graph.walkWeight (g : Graph) : List Nat → ℚ
  | [] => 0
  | [_] => 0
  | u :: v :: rest => (g.weight u v).getD 0 + Graph.walkWeight g (v :: rest)

/-- The list `p` is a path of the graph from `a` to `b`. -/
def Graph.Joins (g : Graph) (p : List Nat) (a b : Nat) : Prop :=
  p.head? = some a ∧ p.getLast? = some b ∧ g.IsWalk p

instance (g : Graph) (p : List Nat) (a b : Nat) : Decidable (g.Joins p a b) :=
  inferInstanceAs (Decidable (p.head? = some a ∧ p.getLast? = some b ∧ g.IsWalk p))

/-- The state at the start of iteration `n` of the main loop of `dijkstra`; `none` once
the loop has been left. -/
def iterState (g : Graph) (start endV : Nat) : Nat → Option DState
  | 0 => some (initState g start)
  | n + 1 =>
    match iterState g start endV n with
    | none => none
    | some st =>
      match minVertex st.distances st.queue with
      | none => none
      | some minV => if minV = endV then none else some (relaxAll g (settle st minV) minV)

/-- The consecutive stop pairs of a line, as the `for` loop of `buildGraph` visits them. -/
def BusRoute.HasSegment (route : BusRoute) (a b : Nat) : Prop :=
  ∃ i, i + 1 < route.stops.length ∧
    ((route.stops.getD i 0 = a ∧ route.stops.getD (i + 1) 0 = b) ∨
     (route.stops.getD i 0 = b ∧ route.stops.getD (i + 1) 0 = a))

/-- The weight `buildGraph` gives to every segment of a line. -/
def BusRoute.segmentWeight (route : BusRoute) : ℚ :=
  route.duration / ((route.stops.length : ℚ) - 1)

/-! ## Invariants of the data structures -/

/-- The shape every constructed graph has: no key occurs twice, and every neighbour key
is a vertex key. -/
structure Graph.WF (g : Graph) : Prop where
  keys_nodup : g.vertices.keys.Nodup
  adj_nodup : ∀ u a, g.vertices.get u = some a → a.keys.Nodup
  adj_closed : ∀ u a, g.vertices.get u = some a → ∀ k ∈ a.keys, k ∈ g.vertices.keys

/-- Every stored weight is strictly positive. -/
def Graph.Pos (g : Graph) : Prop :=
  ∀ u a, g.vertices.get u = some a → ∀ e ∈ a, 0 < e.2

/-- The distance recorded for `v`, `Infinity` when there is none. -/
def DState.dist (st : DState) (v : Nat) : Dist := (st.distances v).getD ⊤

/-- The vertices of a visit list, newest first, have their predecessor among the
vertices visited before them. -/
def VisOrder (previous : Nat → Option Nat) : List Nat → Prop
  | [] => True
  | m :: l => (∀ u, previous m = some u → u ∈ l) ∧ VisOrder previous l

/-- The loop invariant of `dijkstra` that holds whatever the weights are. -/
structure Inv (g : Graph) (start : Nat) (st : DState) : Prop where
  queue_nodup : st.queue.Nodup
  queue_mem : ∀ v ∈ st.queue, g.Mem v
  visited_mem : ∀ v ∈ st.visited, g.Mem v
  disjoint : ∀ v ∈ st.visited, v ∉ st.queue
  cover : ∀ v, g.Mem v → v ∈ st.queue ∨ v ∈ st.visited
  visited_nodup : st.visited.Nodup
  count : st.visited.length + st.queue.length = g.vertices.length
  dist_some : ∀ v, g.Mem v → ∃ d, st.distances v = some d
  prev_order : VisOrder st.previous st.visited
  prev_visited : ∀ v u, st.previous v = some u → u ∈ st.visited
  prev_edge : ∀ v u, st.previous v = some u →
    ∃ w du : ℚ, g.weight u v = some w ∧ st.distances u = some (du : Dist) ∧
      st.distances v = some ((du + w : ℚ) : Dist)
  prev_none : ∀ v, g.Mem v → st.previous v = none →
    st.distances v = some (if v = start then 0 else ⊤)
  start_zero : g.Mem start → st.distances start = some 0 ∧
    (start ∈ st.visited ∨ ∀ v, g.Mem v → v ≠ start → st.distances v = some ⊤)
  dist_none : ∀ v, ¬ g.Mem v → st.distances v = none
  prev_mem : ∀ v u, st.previous v = some u → g.Mem v

/-- A preorder on distances that extends `≤` and that following an edge respects. -/
structure DistRel (g : Graph) (R : Dist → Dist → Prop) : Prop where
  refl : ∀ x, R x x
  trans : ∀ x y z, R x y → R y z → R x z
  of_le : ∀ x y, x ≤ y → R x y
  add_edge : ∀ u e, e ∈ g.adj u → ∀ x : Dist, R x (x + (e.2 : Dist))
  add_mono : ∀ (x y : Dist) (w : ℚ), R x y → R (x + (w : Dist)) (y + (w : Dist))

/-- The relaxation invariant between two iterations: every edge out of a visited vertex
is relaxed, and visited vertices come before queued ones. -/
structure RInv (R : Dist → Dist → Prop) (g : Graph) (st : DState) : Prop where
  edge : ∀ u ∈ st.visited, ∀ e ∈ g.adj u, R (st.dist e.1) (st.dist u + (e.2 : Dist))
  vis_le : ∀ u ∈ st.visited, ∀ q ∈ st.queue, R (st.dist u) (st.dist q)

/-- The relaxation invariant inside the neighbour loop of `cur`, after the entries `done`
have been handled. -/
structure RInvIn (R : Dist → Dist → Prop) (g : Graph) (cur : Nat) (done : List (Nat × ℚ))
    (st : DState) : Prop where
  edge : ∀ u ∈ st.visited, u ≠ cur → ∀ e ∈ g.adj u,
    R (st.dist e.1) (st.dist u + (e.2 : Dist))
  edge_cur : ∀ e ∈ done, R (st.dist e.1) (st.dist cur + (e.2 : Dist))
  vis_le : ∀ u ∈ st.visited, ∀ q ∈ st.queue, R (st.dist u) (st.dist q)
  vis_cur : ∀ u ∈ st.visited, R (st.dist u) (st.dist cur)

/-- Finiteness as an order on distances: `x` is finite whenever `y` is. -/
def finRel (x y : Dist) : Prop := y ≠ ⊤ → x ≠ ⊤

/-- A walk from `a` to `v` of total weight `W`, grown at its end. -/
inductive Graph.Reach (g : Graph) (a : Nat) : Nat → ℚ → Prop where
  | refl : Graph.Reach g a a 0
  | step (u v : Nat) (W w : ℚ) : Graph.Reach g a u W → g.weight u v = some w →
      Graph.Reach g a v (W + w)

/-- The vertex keys are array indices in ascending order. -/
def Graph.SortedKeys (g : Graph) : Prop :=
  g.vertices.keys.Pairwise (fun x y => x < y) ∧ ∀ x ∈ g.vertices.keys, isArrayIndex x = true

/-! ## Concrete inputs -/

/-- The calls that build the network of the concrete scenario. -/
def scenarioOps : List Op :=
  [Op.addEdge 1 2 (25 / 2), Op.addEdge 2 3 (25 / 2), Op.addEdge 1 3 15, Op.addEdge 3 4 15]

/-- Two edges of equal weight from stop 1 to two ids that are no array indices, the larger
id first. -/
def tieOps : List Op := [Op.addEdge 1 4294967296 5, Op.addEdge 1 4294967295 5]

/-- A state of the component before any search. -/
def freshState (fromStop toStop : Option Nat) : UIState := ⟨fromStop, toStop, none, false, ""⟩

/-! ## Objects: reads after writes -/

theorem Obj.get_nil {α : Type} (k : Nat) : Obj.get ([] : Obj α) k = none := rfl

theorem Obj.get_cons {α : Type} (e : Nat × α) (o : Obj α) (k : Nat) :
    Obj.get (e :: o) k = if k = e.1 then some e.2 else Obj.get o k := by
  obtain ⟨a, b⟩ := e
  unfold Obj.get
  by_cases h : k = a
  · subst h; simp [List.lookup]
  · have : (k == a) = false := by simpa using h
    simp [List.lookup, this, h]

theorem Obj.get_eq_none_iff {α : Type} (o : Obj α) (k : Nat) :
    o.get k = none ↔ k ∉ o.keys := by
  induction o with
  | nil => simp [Obj.get_nil, Obj.keys]
  | cons e o ih =>
    rw [Obj.get_cons]
    by_cases h : k = e.1
    · simp [h, Obj.keys]
    · simp only [h, if_false, ih, Obj.keys, List.map_cons, List.mem_cons, false_or]

theorem Obj.get_isSome_iff {α : Type} (o : Obj α) (k : Nat) :
    (o.get k).isSome = true ↔ k ∈ o.keys := by
  rw [← not_iff_not, ← Obj.get_eq_none_iff]
  cases o.get k <;> simp

theorem Obj.mem_of_get {α : Type} (o : Obj α) (k : Nat) (v : α) (h : o.get k = some v) :
    (k, v) ∈ o := by
  induction o with
  | nil => simp [Obj.get_nil] at h
  | cons e o ih =>
    rw [Obj.get_cons] at h
    by_cases hk : k = e.1
    · simp only [hk, if_true, Option.some.injEq] at h
      subst hk; subst h; simp
    · simp only [hk, if_false] at h
      exact List.mem_cons_of_mem _ (ih h)

theorem Obj.get_of_mem {α : Type} (o : Obj α) (k : Nat) (v : α) (hn : o.keys.Nodup)
    (h : (k, v) ∈ o) : o.get k = some v := by
  induction o with
  | nil => simp at h
  | cons e o ih =>
    rw [Obj.get_cons]
    simp only [Obj.keys, List.map_cons, List.nodup_cons] at hn
    rcases List.mem_cons.1 h with h | h
    · subst h; simp
    · have hk : k ∈ o.map Prod.fst := List.mem_map.2 ⟨(k, v), h, rfl⟩
      have : k ≠ e.1 := fun hke => hn.1 (hke ▸ hk)
      simp only [this, if_false]
      exact ih hn.2 h

theorem Obj.mem_keys_of_mem {α : Type} (o : Obj α) (e : Nat × α) (h : e ∈ o) : e.1 ∈ o.keys :=
  List.mem_map.2 ⟨e, h, rfl⟩

theorem Obj.insertNew_perm {α : Type} (k : Nat) (v : α) (o : Obj α) :
    (Obj.insertNew k v o).Perm ((k, v) :: o) := by
  induction o with
  | nil => simp [Obj.insertNew]
  | cons e o ih =>
    unfold Obj.insertNew
    split
    · exact List.Perm.refl _
    · exact (List.Perm.cons e ih).trans (List.Perm.swap _ _ _)

theorem Obj.keys_insertNew_perm {α : Type} (k : Nat) (v : α) (o : Obj α) :
    (Obj.keys (Obj.insertNew k v o)).Perm (k :: o.keys) := by
  have := (Obj.insertNew_perm k v o).map Prod.fst
  simpa [Obj.keys] using this

theorem Obj.get_insertNew {α : Type} (k : Nat) (v : α) (o : Obj α) (h : o.get k = none)
    (x : Nat) : (Obj.insertNew k v o).get x = if x = k then some v else o.get x := by
  induction o with
  | nil => simp [Obj.insertNew, Obj.get_cons, Obj.get_nil]
  | cons e o ih =>
    rw [Obj.get_cons] at h
    have hke : k ≠ e.1 := by
      intro hke; simp [hke] at h
    simp only [hke, if_false] at h
    unfold Obj.insertNew
    split
    · rw [Obj.get_cons]
    · rw [Obj.get_cons, ih h, Obj.get_cons]
      by_cases hx : x = e.1
      · have : e.1 ≠ k := fun h' => hke h'.symm
        simp [hx, this]
      · simp [hx]

theorem Obj.keys_map_same {α : Type} (o : Obj α) (f : Nat × α → Nat × α)
    (hf : ∀ e, (f e).1 = e.1) : Obj.keys (o.map f) = o.keys := by
  unfold Obj.keys
  rw [List.map_map]
  exact List.map_congr_left (fun e _ => hf e)

theorem Obj.get_map {α : Type} (o : Obj α) (f : Nat → α → α) (x : Nat) :
    Obj.get (o.map (fun e => (e.1, f e.1 e.2))) x = (o.get x).map (f x) := by
  induction o with
  | nil => simp [Obj.get_nil]
  | cons e o ih =>
    rw [List.map_cons, Obj.get_cons, Obj.get_cons]
    by_cases hx : x = e.1
    · simp [hx]
    · simp [hx, ih]

theorem Obj.set_replace_eq {α : Type} (o : Obj α) (k : Nat) (v : α) :
    o.map (fun e => if e.1 = k then (k, v) else e)
      = o.map (fun e => (e.1, (fun a b => if a = k then v else b) e.1 e.2)) := by
  apply List.map_congr_left
  intro e _
  by_cases h : e.1 = k
  · simp [h]
  · simp [h]

theorem Obj.get_set {α : Type} (o : Obj α) (k : Nat) (v : α) (x : Nat) :
    (o.set k v).get x = if x = k then some v else o.get x := by
  unfold Obj.set
  split
  · rename_i h
    rw [Obj.set_replace_eq]
    refine (Obj.get_map o (fun a b => if a = k then v else b) x).trans ?_
    by_cases hx : x = k
    · subst hx
      cases hg : o.get x with
      | none => simp [hg] at h
      | some y => simp
    · cases hg : o.get x <;> simp [hx]
  · rename_i h
    have : o.get k = none := by
      cases hg : o.get k with
      | none => rfl
      | some y => simp [hg] at h
    exact Obj.get_insertNew k v o this x

theorem Obj.keys_set {α : Type} (o : Obj α) (k : Nat) (v : α) :
    (k ∈ o.keys ∧ (o.set k v).keys = o.keys) ∨
    (k ∉ o.keys ∧ ((o.set k v).keys).Perm (k :: o.keys)) := by
  unfold Obj.set
  split
  · rename_i h
    left
    refine ⟨(Obj.get_isSome_iff o k).1 h, ?_⟩
    apply Obj.keys_map_same
    intro e
    by_cases he : e.1 = k
    · simp [he]
    · simp [he]
  · rename_i h
    right
    refine ⟨fun hk => h ((Obj.get_isSome_iff o k).2 hk), Obj.keys_insertNew_perm k v o⟩

theorem Obj.mem_keys_set {α : Type} (o : Obj α) (k : Nat) (v : α) (x : Nat) :
    x ∈ (o.set k v).keys ↔ x = k ∨ x ∈ o.keys := by
  rcases Obj.keys_set o k v with ⟨hk, h⟩ | ⟨_, h⟩
  · rw [h]
    constructor
    · exact fun hx => Or.inr hx
    · rintro (hx | hx)
      · exact hx ▸ hk
      · exact hx
  · rw [h.mem_iff, List.mem_cons]

theorem Obj.nodup_keys_set {α : Type} (o : Obj α) (k : Nat) (v : α) (hn : o.keys.Nodup) :
    (o.set k v).keys.Nodup := by
  rcases Obj.keys_set o k v with ⟨_, h⟩ | ⟨hk, h⟩
  · rw [h]; exact hn
  · exact h.nodup_iff.2 (List.nodup_cons.2 ⟨hk, hn⟩)

theorem Obj.mem_set {α : Type} (o : Obj α) (k : Nat) (v : α) (e : Nat × α)
    (h : e ∈ o.set k v) : e = (k, v) ∨ e ∈ o := by
  unfold Obj.set at h
  split at h
  · obtain ⟨e', he', rfl⟩ := List.mem_map.1 h
    by_cases hk : e'.1 = k
    · simp [hk]
    · simp [hk, he']
  · have := (Obj.insertNew_perm k v o).mem_iff.1 h
    simpa using this

/-! ## Graph construction -/

theorem Graph.get_addVertex (g : Graph) (x u : Nat) :
    (g.addVertex x).vertices.get u
      = if u = x then some ((g.vertices.get x).getD []) else g.vertices.get u := by
  unfold Graph.addVertex
  cases hx : g.vertices.get x with
  | none =>
    simp only [Obj.get_set, Option.getD_none]
  | some a =>
    by_cases hu : u = x
    · subst hu; simp [hx]
    · simp [hu]

theorem Graph.mem_addVertex (g : Graph) (x u : Nat) :
    (g.addVertex x).Mem u ↔ u = x ∨ g.Mem u := by
  unfold Graph.Mem
  rw [← Obj.get_isSome_iff, ← Obj.get_isSome_iff, Graph.get_addVertex]
  by_cases hu : u = x
  · simp [hu]
  · simp [hu]

theorem Graph.setWeight_eq (g : Graph) (a b : Nat) (w : ℚ) :
    (g.setWeight a b w).vertices
      = g.vertices.map (fun e => (e.1, (fun k adj => if k = a then Obj.set adj b w else adj)
          e.1 e.2)) := by
  unfold Graph.setWeight
  simp only
  apply List.map_congr_left
  intro e _
  by_cases h : e.1 = a
  · simp [h]
  · simp [h]

theorem Graph.get_setWeight (g : Graph) (a b : Nat) (w : ℚ) (u : Nat) :
    (g.setWeight a b w).vertices.get u
      = (g.vertices.get u).map (fun adj => if u = a then Obj.set adj b w else adj) := by
  rw [Graph.setWeight_eq]
  exact Obj.get_map g.vertices (fun k adj => if k = a then Obj.set adj b w else adj) u

theorem Graph.keys_setWeight (g : Graph) (a b : Nat) (w : ℚ) :
    (g.setWeight a b w).vertices.keys = g.vertices.keys := by
  rw [Graph.setWeight_eq]
  exact Obj.keys_map_same _ _ (fun e => rfl)

theorem Graph.mem_setWeight (g : Graph) (a b : Nat) (w : ℚ) (u : Nat) :
    (g.setWeight a b w).Mem u ↔ g.Mem u := by
  unfold Graph.Mem
  rw [Graph.keys_setWeight]

theorem Graph.mem_addEdge (g : Graph) (x y : Nat) (w : ℚ) (u : Nat) :
    (g.addEdge x y w).Mem u ↔ u = x ∨ u = y ∨ g.Mem u := by
  unfold Graph.addEdge
  rw [Graph.mem_setWeight, Graph.mem_setWeight, Graph.mem_addVertex, Graph.mem_addVertex]
  tauto

theorem Graph.weight_addVertex (g : Graph) (x a b : Nat) :
    (g.addVertex x).weight a b = g.weight a b := by
  unfold Graph.weight
  rw [Graph.get_addVertex]
  by_cases ha : a = x
  · subst ha
    cases hg : g.vertices.get a with
    | none => simp [Obj.get_nil]
    | some adj => simp
  · simp [ha]

theorem Graph.weight_setWeight (g : Graph) (x y : Nat) (w : ℚ) (a b : Nat) :
    (g.setWeight x y w).weight a b
      = if a = x ∧ b = y ∧ g.Mem a then some w else g.weight a b := by
  have hm : g.Mem a ↔ (g.vertices.get a).isSome = true := (Obj.get_isSome_iff _ _).symm
  unfold Graph.weight
  rw [Graph.get_setWeight]
  cases hg : g.vertices.get a with
  | none => simp [hm, hg]
  | some adj =>
    by_cases ha : a = x
    · by_cases hb : b = y
      · have hmx : g.Mem x := by rw [← ha]; exact hm.2 (by simp [hg])
        simp [ha, hb, Obj.get_set, hmx]
      · simp [ha, hb, Obj.get_set]
    · simp [ha]

/-- The weight stored for any pair after `addEdge`: the new weight on the pair given, in
both directions, and what was there before on every other pair. -/
theorem Graph.weight_addEdge (g : Graph) (x y : Nat) (w : ℚ) (a b : Nat) :
    (g.addEdge x y w).weight a b
      = if (a = x ∧ b = y) ∨ (a = y ∧ b = x) then some w else g.weight a b := by
  unfold Graph.addEdge
  rw [Graph.weight_setWeight, Graph.weight_setWeight, Graph.weight_addVertex,
    Graph.weight_addVertex]
  simp only [Graph.mem_setWeight, Graph.mem_addVertex]
  by_cases h1 : a = y ∧ b = x
  · simp [h1]
  · by_cases h2 : a = x ∧ b = y
    · have h1' : ¬ (a = y ∧ b = x ∧ (a = y ∨ a = x ∨ g.Mem a)) := fun h => h1 ⟨h.1, h.2.1⟩
      simp [h2]
    · have h1' : ¬ (a = y ∧ b = x ∧ (a = y ∨ a = x ∨ g.Mem a)) := fun h => h1 ⟨h.1, h.2.1⟩
      have h2' : ¬ (a = x ∧ b = y ∧ (a = x ∨ g.Mem a)) := fun h => h2 ⟨h.1, h.2.1⟩
      have h3 : ¬ (a = x ∧ b = y ∨ a = y ∧ b = x) := fun h => h.elim h2 h1
      rw [if_neg h1', if_neg (fun h => h2 ⟨h.1, h.2.1⟩), if_neg h3]

/-! ### Well-formedness -/

theorem Graph.WF_empty : Graph.empty.WF := by
  refine ⟨?_, ?_, ?_⟩
  · simp [Graph.empty, Obj.keys]
  · intro u a h; simp [Graph.empty, Obj.get_nil] at h
  · intro u a h; simp [Graph.empty, Obj.get_nil] at h

theorem Graph.WF_addVertex (g : Graph) (x : Nat) (h : g.WF) : (g.addVertex x).WF := by
  refine ⟨?_, ?_, ?_⟩
  · unfold Graph.addVertex
    cases hx : g.vertices.get x with
    | none => exact Obj.nodup_keys_set _ _ _ h.keys_nodup
    | some a => exact h.keys_nodup
  · intro u a hu
    rw [Graph.get_addVertex] at hu
    by_cases hux : u = x
    · simp only [hux, if_true, Option.some.injEq] at hu
      cases hg : g.vertices.get x with
      | none => rw [hg] at hu; subst hu; simp [Obj.keys]
      | some a' => rw [hg] at hu; simp only [Option.getD_some] at hu; subst hu
                   exact h.adj_nodup x a' hg
    · simp only [hux, if_false] at hu
      exact h.adj_nodup u a hu
  · intro u a hu k hk
    have hmem : ∀ k, g.Mem k → (g.addVertex x).Mem k :=
      fun k hk => (Graph.mem_addVertex g x k).2 (Or.inr hk)
    rw [Graph.get_addVertex] at hu
    by_cases hux : u = x
    · simp only [hux, if_true, Option.some.injEq] at hu
      cases hg : g.vertices.get x with
      | none => rw [hg] at hu; subst hu; simp [Obj.keys] at hk
      | some a' => rw [hg] at hu; simp only [Option.getD_some] at hu; subst hu
                   exact hmem k (h.adj_closed x a' hg k hk)
    · simp only [hux, if_false] at hu
      exact hmem k (h.adj_closed u a hu k hk)

theorem Graph.WF_setWeight (g : Graph) (a b : Nat) (w : ℚ) (h : g.WF) (hb : g.Mem b) :
    (g.setWeight a b w).WF := by
  refine ⟨?_, ?_, ?_⟩
  · rw [Graph.keys_setWeight]; exact h.keys_nodup
  · intro u adj hu
    rw [Graph.get_setWeight] at hu
    cases hg : g.vertices.get u with
    | none => simp [hg] at hu
    | some adj' =>
      simp only [hg, Option.map_some', Option.some.injEq] at hu
      subst hu
      split
      · exact Obj.nodup_keys_set _ _ _ (h.adj_nodup u adj' hg)
      · exact h.adj_nodup u adj' hg
  · intro u adj hu k hk
    rw [Graph.keys_setWeight]
    rw [Graph.get_setWeight] at hu
    cases hg : g.vertices.get u with
    | none => simp [hg] at hu
    | some adj' =>
      simp only [hg, Option.map_some', Option.some.injEq] at hu
      subst hu
      split at hk
      · rcases (Obj.mem_keys_set _ _ _ _).1 hk with hk | hk
        · exact hk ▸ hb
        · exact h.adj_closed u adj' hg k hk
      · exact h.adj_closed u adj' hg k hk

theorem Graph.WF_addEdge (g : Graph) (x y : Nat) (w : ℚ) (h : g.WF) : (g.addEdge x y w).WF := by
  unfold Graph.addEdge
  have h2 : ((g.addVertex x).addVertex y).WF :=
    Graph.WF_addVertex _ _ (Graph.WF_addVertex _ _ h)
  have hy : ((g.addVertex x).addVertex y).Mem y := (Graph.mem_addVertex _ _ _).2 (Or.inl rfl)
  have hx : ((g.addVertex x).addVertex y).Mem x :=
    (Graph.mem_addVertex _ _ _).2 (Or.inr ((Graph.mem_addVertex _ _ _).2 (Or.inl rfl)))
  have h3 := Graph.WF_setWeight _ x y w h2 hy
  exact Graph.WF_setWeight _ y x w h3 ((Graph.mem_setWeight _ _ _ _ _).2 hx)

theorem Graph.WF_apply (g : Graph) (op : Op) (h : g.WF) : (g.apply op).WF := by
  cases op with
  | addVertex v => exact Graph.WF_addVertex g v h
  | addEdge u v w => exact Graph.WF_addEdge g u v w h

theorem Graph.WF_foldl_apply (ops : List Op) : ∀ g : Graph, g.WF → (ops.foldl Graph.apply g).WF := by
  induction ops with
  | nil => intro g h; exact h
  | cons op ops ih => intro g h; exact ih _ (Graph.WF_apply g op h)

theorem Graph.WF_build (ops : List Op) : (Graph.build ops).WF :=
  Graph.WF_foldl_apply ops _ Graph.WF_empty

theorem WF_addRoute (g : Graph) (route : BusRoute) (h : g.WF) : (addRoute g route).WF := by
  unfold addRoute
  generalize List.range (route.stops.length - 1) = l
  induction l generalizing g with
  | nil => exact h
  | cons i l ih => exact ih _ (Graph.WF_addEdge _ _ _ _ h)

theorem WF_foldl_addRoute (routes : List BusRoute) :
    ∀ g : Graph, g.WF → (routes.foldl addRoute g).WF := by
  induction routes with
  | nil => intro g h; exact h
  | cons r rs ih => intro g h; exact ih _ (WF_addRoute g r h)

theorem WF_buildGraph (routes : List BusRoute) : (buildGraph routes).WF :=
  WF_foldl_addRoute routes _ Graph.WF_empty

/-! ### Positive weights -/

theorem Graph.Pos_empty : Graph.empty.Pos := by
  intro u a h; simp [Graph.empty, Obj.get_nil] at h

theorem Graph.Pos_addVertex (g : Graph) (x : Nat) (h : g.Pos) : (g.addVertex x).Pos := by
  intro u a hu e he
  rw [Graph.get_addVertex] at hu
  by_cases hux : u = x
  · simp only [hux, if_true, Option.some.injEq] at hu
    cases hg : g.vertices.get x with
    | none => rw [hg] at hu; subst hu; simp at he
    | some a' => rw [hg] at hu; simp only [Option.getD_some] at hu; subst hu
                 exact h x a' hg e he
  · simp only [hux, if_false] at hu
    exact h u a hu e he

theorem Graph.Pos_setWeight (g : Graph) (a b : Nat) (w : ℚ) (h : g.Pos) (hw : 0 < w) :
    (g.setWeight a b w).Pos := by
  intro u adj hu e he
  rw [Graph.get_setWeight] at hu
  cases hg : g.vertices.get u with
  | none => simp [hg] at hu
  | some adj' =>
    simp only [hg, Option.map_some', Option.some.injEq] at hu
    subst hu
    split at he
    · rcases Obj.mem_set _ _ _ _ he with he | he
      · rw [he]; exact hw
      · exact h u adj' hg e he
    · exact h u adj' hg e he

theorem Graph.Pos_addEdge (g : Graph) (x y : Nat) (w : ℚ) (h : g.Pos) (hw : 0 < w) :
    (g.addEdge x y w).Pos :=
  Graph.Pos_setWeight _ _ _ _
    (Graph.Pos_setWeight _ _ _ _ (Graph.Pos_addVertex _ _ (Graph.Pos_addVertex _ _ h)) hw) hw

theorem Graph.Pos_foldl_apply (ops : List Op) :
    ∀ g : Graph, g.Pos → (∀ op ∈ ops, op.Positive) → (ops.foldl Graph.apply g).Pos := by
  induction ops with
  | nil => intro g h _; exact h
  | cons op ops ih =>
    intro g h hp
    apply ih
    · cases op with
      | addVertex v => exact Graph.Pos_addVertex g v h
      | addEdge u v w =>
        exact Graph.Pos_addEdge g u v w h (hp (Op.addEdge u v w) (List.mem_cons_self _ _))
    · intro op' hop'
      exact hp op' (List.mem_cons_of_mem _ hop')

theorem Graph.Pos_build (ops : List Op) (hp : ∀ op ∈ ops, op.Positive) : (Graph.build ops).Pos :=
  Graph.Pos_foldl_apply ops _ Graph.Pos_empty hp

/-! ### Neighbour lists of a well-formed graph -/

theorem Graph.mem_adj_iff (g : Graph) (h : g.WF) (u v : Nat) (w : ℚ) :
    (v, w) ∈ g.adj u ↔ g.weight u v = some w := by
  unfold Graph.adj Graph.weight
  cases hg : g.vertices.get u with
  | none => simp
  | some a =>
    simp only [Option.getD_some, Option.some_bind]
    exact ⟨Obj.get_of_mem a v w (h.adj_nodup u a hg), Obj.mem_of_get a v w⟩

theorem Graph.mem_of_mem_adj (g : Graph) (h : g.WF) (u : Nat) (e : Nat × ℚ)
    (he : e ∈ g.adj u) : g.Mem e.1 := by
  unfold Graph.adj at he
  cases hg : g.vertices.get u with
  | none => simp [hg] at he
  | some a =>
    simp only [hg, Option.getD_some] at he
    exact h.adj_closed u a hg e.1 (Obj.mem_keys_of_mem a e he)

theorem Graph.pos_of_mem_adj (g : Graph) (h : g.Pos) (u : Nat) (e : Nat × ℚ)
    (he : e ∈ g.adj u) : 0 < e.2 := by
  unfold Graph.adj at he
  cases hg : g.vertices.get u with
  | none => simp [hg] at he
  | some a =>
    simp only [hg, Option.getD_some] at he
    exact h u a hg e he

/-! ## The local state of `dijkstra` -/

theorem initState_foldl (start : Nat) (l : List Nat) : ∀ st : DState,
    l.foldl
      (fun st vertex =>
        { st with
          distances := setKey st.distances vertex (if vertex = start then 0 else ⊤)
          queue := st.queue ++ [vertex] }) st
    = ⟨fun v => if v ∈ l then some (if v = start then 0 else ⊤) else st.distances v,
        st.previous, st.visited, st.queue ++ l⟩ := by
  induction l with
  | nil => intro st; simp
  | cons x l ih =>
    intro st
    rw [List.foldl_cons, ih]
    simp only [List.append_assoc, List.singleton_append, DState.mk.injEq, and_true, true_and]
    funext v
    by_cases hv : v ∈ l
    · simp [hv]
    · by_cases hx : v = x
      · simp [hx, setKey]
      · simp [hv, hx, setKey]

theorem initState_eq (g : Graph) (start : Nat) :
    initState g start
      = ⟨fun v => if v ∈ g.vertices.keys then some (if v = start then 0 else ⊤) else none,
          fun _ => none, [], g.vertices.keys⟩ := by
  unfold initState
  rw [initState_foldl]
  simp

theorem jsLt_some (x y : Dist) : jsLt (some x) (some y) = decide (x < y) := rfl

theorem dist_of_some (st : DState) (v : Nat) (d : Dist) (h : st.distances v = some d) :
    st.dist v = d := by
  unfold DState.dist; rw [h]; rfl

theorem distances_eq_dist (st : DState) (v : Nat) (h : ∃ d, st.distances v = some d) :
    st.distances v = some (st.dist v) := by
  obtain ⟨d, hd⟩ := h
  rw [dist_of_some st v d hd, hd]

/-! ### Minimum selection -/

theorem minStep_eq (d : Nat → Option Dist) (a b : Nat) : minStep d a b = a ∨ minStep d a b = b := by
  unfold minStep
  split
  · exact Or.inr rfl
  · exact Or.inl rfl

theorem foldl_minStep_mem (d : Nat → Option Dist) (rest : List Nat) :
    ∀ v, rest.foldl (minStep d) v ∈ v :: rest := by
  induction rest with
  | nil => intro v; simp
  | cons x rest ih =>
    intro v
    rw [List.foldl_cons]
    have := ih (minStep d v x)
    rcases minStep_eq d v x with h | h
    · rw [h] at this ⊢
      rcases List.mem_cons.1 this with h' | h'
      · rw [h']; simp
      · exact List.mem_cons_of_mem _ (List.mem_cons_of_mem _ h')
    · rw [h] at this ⊢
      exact List.mem_cons_of_mem _ this

theorem minVertex_mem (d : Nat → Option Dist) (q : List Nat) (m : Nat)
    (h : minVertex d q = some m) : m ∈ q := by
  cases q with
  | nil => simp [minVertex] at h
  | cons v rest =>
    simp only [minVertex, Option.some.injEq] at h
    rw [← h]
    exact foldl_minStep_mem d rest v

theorem minVertex_isSome (d : Nat → Option Dist) (q : List Nat) (h : q ≠ []) :
    ∃ m, minVertex d q = some m := by
  cases q with
  | nil => exact absurd rfl h
  | cons v rest => exact ⟨_, rfl⟩

theorem minVertex_eq_none (d : Nat → Option Dist) (q : List Nat) (h : minVertex d q = none) :
    q = [] := by
  cases q with
  | nil => rfl
  | cons v rest => simp [minVertex] at h

/-- The element `queue.reduce` returns is a first minimum: it is at most every element,
and strictly below every element that comes before it. -/
theorem foldl_minStep_spec (st : DState) (l : List Nat) (v : Nat)
    (hdef : ∀ q ∈ v :: l, ∃ x, st.distances q = some x) :
    (∀ q ∈ v :: l, st.dist (l.foldl (minStep st.distances) v) ≤ st.dist q) ∧
    (∀ l1 l2, v :: l = l1 ++ l.foldl (minStep st.distances) v :: l2 →
      (l.foldl (minStep st.distances) v) ∉ l1 →
      ∀ q ∈ l1, st.dist (l.foldl (minStep st.distances) v) < st.dist q) := by
  induction l using List.reverseRecOn with
  | nil =>
    refine ⟨?_, ?_⟩
    · intro q hq
      simp only [List.mem_singleton] at hq
      subst hq
      simp
    · intro l1 l2 h hnot q hq
      simp only [List.foldl_nil] at h hnot
      cases l1 with
      | nil => simp at hq
      | cons a l1 =>
        simp only [List.cons_append, List.cons.injEq] at h
        have := congrArg List.length h.2
        simp at this
        omega
  | append_singleton l x ih =>
    have hdef' : ∀ q ∈ v :: l, ∃ y, st.distances q = some y := by
      intro q hq
      apply hdef
      rcases List.mem_cons.1 hq with h | h
      · rw [h]; simp
      · simp [h]
    obtain ⟨ih1, ih2⟩ := ih hdef'
    rw [List.foldl_append, List.foldl_cons, List.foldl_nil]
    set m := l.foldl (minStep st.distances) v with hm
    have hmmem : m ∈ v :: l := foldl_minStep_mem st.distances l v
    have hx : st.distances x = some (st.dist x) :=
      distances_eq_dist st x (hdef x (by simp))
    have hmd : st.distances m = some (st.dist m) := distances_eq_dist st m (hdef' m hmmem)
    unfold minStep
    rw [hx, hmd, jsLt_some]
    by_cases hlt : st.dist x < st.dist m
    · simp only [hlt, decide_True, if_true]
      refine ⟨?_, ?_⟩
      · intro q hq
        have hq' : q ∈ v :: l ∨ q = x := by
          rcases List.mem_cons.1 hq with h | h
          · left; rw [h]; simp
          · rcases List.mem_append.1 h with h | h
            · left; simp [h]
            · right; simpa using h
        rcases hq' with h | h
        · exact le_of_lt (lt_of_lt_of_le hlt (ih1 q h))
        · rw [h]
      · intro l1 l2 h hnot q hq
        have hql : q ∈ v :: l := by
          have hlen := congrArg List.length h
          have hsplit : v :: (l ++ [x]) = (v :: l) ++ [x] := by simp
          rw [hsplit] at h
          rcases List.append_eq_append_iff.1 h with ⟨a', h1, h2⟩ | ⟨c', h1, h2⟩
          · cases a' with
            | nil =>
              simp only [List.append_nil] at h1
              rw [← h1]; exact hq
            | cons y a' =>
              simp only [List.cons_append, List.cons.injEq] at h2
              have := congrArg List.length h2.2
              simp at this
              omega
          · rw [h1]; exact List.mem_append_left _ hq
        exact lt_of_lt_of_le hlt (ih1 q hql)
    · simp only [hlt, decide_False, if_false, Bool.false_eq_true]
      refine ⟨?_, ?_⟩
      · intro q hq
        have hq' : q ∈ v :: l ∨ q = x := by
          rcases List.mem_cons.1 hq with h | h
          · left; rw [h]; simp
          · rcases List.mem_append.1 h with h | h
            · left; simp [h]
            · right; simpa using h
        rcases hq' with h | h
        · exact ih1 q h
        · rw [h]; exact not_lt.1 hlt
      · intro l1 l2 h hnot q hq
        have hsplit : v :: (l ++ [x]) = (v :: l) ++ [x] := by simp
        rw [hsplit] at h
        rcases List.append_eq_append_iff.1 h with ⟨a', h1, h2⟩ | ⟨c', h1, h2⟩
        · -- l1 = (v :: l) ++ a'
          exfalso
          apply hnot
          rw [h1]
          exact List.mem_append_left _ hmmem
        · -- v :: l = l1 ++ c'
          cases c' with
          | nil =>
            exfalso
            apply hnot
            simp only [List.append_nil] at h1
            rw [← h1]; exact hmmem
          | cons y c' =>
            simp only [List.cons_append, List.cons.injEq] at h2
            obtain ⟨hy, h2⟩ := h2
            rw [← hy] at h1
            exact ih2 l1 c' h1 hnot q hq

theorem minVertex_le (st : DState) (m : Nat)
    (hdef : ∀ q ∈ st.queue, ∃ x, st.distances q = some x)
    (h : minVertex st.distances st.queue = some m) :
    ∀ q ∈ st.queue, st.dist m ≤ st.dist q := by
  cases hq : st.queue with
  | nil => rw [hq] at h; simp [minVertex] at h
  | cons v rest =>
    rw [hq] at h hdef
    simp only [minVertex, Option.some.injEq] at h
    rw [← h]
    exact (foldl_minStep_spec st rest v hdef).1

/-! ### The statements of the loop body -/

theorem settle_queue (st : DState) (m : Nat) : (settle st m).queue = st.queue.erase m := rfl
theorem settle_visited (st : DState) (m : Nat) : (settle st m).visited = st.visited.insert m := rfl
theorem settle_distances (st : DState) (m : Nat) : (settle st m).distances = st.distances := rfl
theorem settle_previous (st : DState) (m : Nat) : (settle st m).previous = st.previous := rfl
theorem settle_dist (st : DState) (m v : Nat) : (settle st m).dist v = st.dist v := rfl

/-- What one pass of the neighbour loop does: nothing, when the neighbour is visited or
not improved; otherwise it records the new distance and predecessor. -/
theorem relax_cases (st : DState) (m : Nat) (e : Nat × ℚ)
    (hm : ∃ d, st.distances m = some d) (hx : ∃ d, st.distances e.1 = some d) :
    (relax m st e = st ∧ (e.1 ∈ st.visited ∨ st.dist e.1 ≤ st.dist m + (e.2 : Dist))) ∨
    (e.1 ∉ st.visited ∧ st.dist m + (e.2 : Dist) < st.dist e.1 ∧
      relax m st e = { st with
        distances := setKey st.distances e.1 (st.dist m + (e.2 : Dist))
        previous := setKey st.previous e.1 m }) := by
  have hmd := distances_eq_dist st m hm
  have hxd := distances_eq_dist st e.1 hx
  unfold relax
  by_cases hv : e.1 ∈ st.visited
  · left; simp [hv]
  · rw [if_neg hv, hmd, hxd]
    simp only [jsAdd, Option.map_some', jsLt_some, decide_eq_true_eq]
    by_cases hlt : st.dist m + (e.2 : Dist) < st.dist e.1
    · right
      refine ⟨hv, hlt, ?_⟩
      simp only [hlt, if_true]
    · left
      refine ⟨?_, Or.inr (not_lt.1 hlt)⟩
      simp only [hlt, if_false]

theorem relax_queue (m : Nat) (st : DState) (e : Nat × ℚ) : (relax m st e).queue = st.queue := by
  unfold relax
  split
  · rfl
  · split
    · rfl
    · split <;> rfl

theorem relax_visited (m : Nat) (st : DState) (e : Nat × ℚ) :
    (relax m st e).visited = st.visited := by
  unfold relax
  split
  · rfl
  · split
    · rfl
    · split <;> rfl

theorem foldl_relax_queue (m : Nat) (l : List (Nat × ℚ)) :
    ∀ st : DState, (l.foldl (relax m) st).queue = st.queue := by
  induction l with
  | nil => intro st; rfl
  | cons e l ih => intro st; rw [List.foldl_cons, ih, relax_queue]

theorem foldl_relax_visited (m : Nat) (l : List (Nat × ℚ)) :
    ∀ st : DState, (l.foldl (relax m) st).visited = st.visited := by
  induction l with
  | nil => intro st; rfl
  | cons e l ih => intro st; rw [List.foldl_cons, ih, relax_visited]

theorem relaxAll_queue (g : Graph) (st : DState) (m : Nat) :
    (relaxAll g st m).queue = st.queue := foldl_relax_queue m _ st

theorem relaxAll_visited (g : Graph) (st : DState) (m : Nat) :
    (relaxAll g st m).visited = st.visited := foldl_relax_visited m _ st

/-! ## The structural loop invariant -/

theorem VisOrder_congr (p p' : Nat → Option Nat) (l : List Nat)
    (h : ∀ v ∈ l, p' v = p v) (ho : VisOrder p l) : VisOrder p' l := by
  induction l with
  | nil => trivial
  | cons m l ih =>
    obtain ⟨h1, h2⟩ := ho
    refine ⟨?_, ih (fun v hv => h v (List.mem_cons_of_mem _ hv)) h2⟩
    intro u hu
    rw [h m (List.mem_cons_self _ _)] at hu
    exact h1 u hu

theorem Inv_init (g : Graph) (hwf : g.WF) (start : Nat) : Inv g start (initState g start) := by
  rw [initState_eq]
  refine ⟨hwf.keys_nodup, fun v hv => hv, ?_, ?_, fun v hv => Or.inl hv, List.nodup_nil, ?_,
    ?_, trivial, ?_, ?_, ?_, ?_, ?_, ?_⟩
  · intro v hv; simp at hv
  · intro v hv; simp at hv
  · simp [Obj.keys]
  · intro v hv
    have hv' : v ∈ g.vertices.keys := hv
    exact ⟨_, if_pos hv'⟩
  · intro v u h; simp at h
  · intro v u h; simp at h
  · intro v hv _
    have hv' : v ∈ g.vertices.keys := hv
    simp only [hv', if_true]
  · intro hs
    have hs' : start ∈ g.vertices.keys := hs
    refine ⟨by simp [hs'], Or.inr ?_⟩
    intro v hv hne
    have hv' : v ∈ g.vertices.keys := hv
    simp [hv', hne]
  · intro v hv
    have hv' : v ∉ g.vertices.keys := hv
    simp only [hv', if_false]
  · intro v u h; simp at h

theorem Inv.min_not_visited {g : Graph} {start : Nat} {st : DState} (hinv : Inv g start st)
    {m : Nat} (hmin : minVertex st.distances st.queue = some m) : m ∉ st.visited :=
  fun hv => hinv.disjoint m hv (minVertex_mem _ _ _ hmin)

theorem Inv.queue_dist_some {g : Graph} {start : Nat} {st : DState} (hinv : Inv g start st) :
    ∀ q ∈ st.queue, ∃ x, st.distances q = some x :=
  fun q hq => hinv.dist_some q (hinv.queue_mem q hq)

theorem Inv_settle (g : Graph) (start : Nat) (st : DState) (m : Nat) (hinv : Inv g start st)
    (hmin : minVertex st.distances st.queue = some m) :
    Inv g start (settle st m) ∧ (g.Mem start → start ∈ (settle st m).visited) := by
  have hmq : m ∈ st.queue := minVertex_mem _ _ _ hmin
  have hmv : m ∉ st.visited := hinv.min_not_visited hmin
  have hvis : (settle st m).visited = m :: st.visited := by
    rw [settle_visited]; exact List.insert_of_not_mem hmv
  have hstart : g.Mem start → start ∈ (settle st m).visited := by
    intro hs
    rw [hvis]
    obtain ⟨h0, h1⟩ := hinv.start_zero hs
    rcases h1 with h1 | h1
    · exact List.mem_cons_of_mem _ h1
    · by_cases hsv : start ∈ st.visited
      · exact List.mem_cons_of_mem _ hsv
      · by_cases hms : m = start
        · rw [hms]; exact List.mem_cons_self _ _
        · exfalso
          have hsq : start ∈ st.queue := (hinv.cover start hs).resolve_right hsv
          have hmtop := h1 m (hinv.queue_mem m hmq) hms
          have hle := minVertex_le st m hinv.queue_dist_some hmin start hsq
          rw [dist_of_some st m _ hmtop, dist_of_some st start _ h0] at hle
          exact absurd hle (by simp)
  refine ⟨⟨?_, ?_, ?_, ?_, ?_, ?_, ?_, ?_, ?_, ?_, ?_, ?_, ?_, hinv.dist_none, hinv.prev_mem⟩,
    hstart⟩
  · rw [settle_queue]; exact hinv.queue_nodup.erase m
  · intro v hv
    rw [settle_queue] at hv
    exact hinv.queue_mem v (List.mem_of_mem_erase hv)
  · intro v hv
    rw [hvis] at hv
    rcases List.mem_cons.1 hv with h | h
    · rw [h]; exact hinv.queue_mem m hmq
    · exact hinv.visited_mem v h
  · intro v hv hq
    rw [hvis] at hv
    rw [settle_queue] at hq
    rcases List.mem_cons.1 hv with h | h
    · rw [h] at hq
      exact (hinv.queue_nodup.mem_erase_iff.1 hq).1 rfl
    · exact hinv.disjoint v h (List.mem_of_mem_erase hq)
  · intro v hv
    rw [hvis, settle_queue]
    by_cases hvm : v = m
    · right; rw [hvm]; exact List.mem_cons_self _ _
    · rcases hinv.cover v hv with h | h
      · left; exact (List.mem_erase_of_ne hvm).2 h
      · right; exact List.mem_cons_of_mem _ h
  · rw [hvis]; exact List.nodup_cons.2 ⟨hmv, hinv.visited_nodup⟩
  · rw [hvis, settle_queue, List.length_cons, List.length_erase_of_mem hmq]
    have := hinv.count
    have hpos : 0 < st.queue.length := List.length_pos_of_mem hmq
    omega
  · exact hinv.dist_some
  · rw [hvis]
    exact ⟨fun u hu => hinv.prev_visited m u hu, hinv.prev_order⟩
  · intro v u h
    rw [hvis]
    exact List.mem_cons_of_mem _ (hinv.prev_visited v u h)
  · exact hinv.prev_edge
  · exact hinv.prev_none
  · intro hs
    exact ⟨(hinv.start_zero hs).1, Or.inl (hstart hs)⟩

theorem Inv_relax (g : Graph) (hwf : g.WF) (start : Nat) (st : DState) (m : Nat) (e : Nat × ℚ)
    (hinv : Inv g start st) (hm : m ∈ st.visited) (hs : g.Mem start → start ∈ st.visited)
    (he : e ∈ g.adj m) : Inv g start (relax m st e) := by
  have hmV := hinv.visited_mem m hm
  have hxV := Graph.mem_of_mem_adj g hwf m e he
  rcases relax_cases st m e (hinv.dist_some m hmV) (hinv.dist_some e.1 hxV) with
    ⟨h, _⟩ | ⟨hxv, hlt, h⟩
  · rw [h]; exact hinv
  · rw [h]
    have hmx : m ≠ e.1 := fun h' => hxv (h' ▸ hm)
    have hfin : st.dist m ≠ ⊤ := by
      intro ht
      rw [ht] at hlt
      simp at hlt
    obtain ⟨dm, hdm⟩ := WithTop.ne_top_iff_exists.1 hfin
    have hmd : st.distances m = some (dm : Dist) := by
      rw [distances_eq_dist st m (hinv.dist_some m hmV), ← hdm]
    have hw : g.weight m e.1 = some e.2 := (Graph.mem_adj_iff g hwf m e.1 e.2).1 he
    have hnew : st.dist m + (e.2 : Dist) = ((dm + e.2 : ℚ) : Dist) := by
      rw [← hdm]; rfl
    refine ⟨hinv.queue_nodup, hinv.queue_mem, hinv.visited_mem, hinv.disjoint, hinv.cover,
      hinv.visited_nodup, hinv.count, ?_, ?_, ?_, ?_, ?_, ?_, ?_, ?_⟩
    · intro v hv
      by_cases hve : v = e.1
      · exact ⟨_, if_pos hve⟩
      · obtain ⟨d, hd⟩ := hinv.dist_some v hv
        exact ⟨d, by simp only [setKey, hve, if_false]; exact hd⟩
    · apply VisOrder_congr st.previous _ _ _ hinv.prev_order
      intro v hv
      have hve : v ≠ e.1 := fun h' => hxv (h' ▸ hv)
      simp only [setKey, hve, if_false]
    · intro v u hvu
      simp only [setKey] at hvu
      split at hvu
      · simp only [Option.some.injEq] at hvu
        rw [← hvu]; exact hm
      · exact hinv.prev_visited v u hvu
    · intro v u hvu
      simp only [setKey] at hvu ⊢
      by_cases hve : v = e.1
      · simp only [hve, if_true, Option.some.injEq] at hvu
        subst hvu
        refine ⟨e.2, dm, ?_, ?_, ?_⟩
        · rw [hve]; exact hw
        · simp only [hmx, if_false]; exact hmd
        · simp only [hve, if_true]; rw [hnew]
      · simp only [hve, if_false] at hvu
        obtain ⟨w, du, h1, h2, h3⟩ := hinv.prev_edge v u hvu
        have hue : u ≠ e.1 := fun h' => hxv (h' ▸ hinv.prev_visited v u hvu)
        refine ⟨w, du, h1, ?_, ?_⟩
        · simp only [hue, if_false]; exact h2
        · simp only [hve, if_false]; exact h3
    · intro v hv hvn
      simp only [setKey] at hvn ⊢
      by_cases hve : v = e.1
      · simp [hve] at hvn
      · simp only [hve, if_false] at hvn ⊢
        exact hinv.prev_none v hv hvn
    · intro hs'
      have hse : start ≠ e.1 := fun h' => hxv (h' ▸ hs hs')
      refine ⟨?_, Or.inl (hs hs')⟩
      simp only [setKey, hse, if_false]
      exact (hinv.start_zero hs').1
    · intro v hv
      have hve : v ≠ e.1 := fun h' => hv (h' ▸ hxV)
      simp only [setKey, hve, if_false]
      exact hinv.dist_none v hv
    · intro v u hvu
      simp only [setKey] at hvu
      split at hvu
      · rename_i hve
        rw [hve]; exact hxV
      · exact hinv.prev_mem v u hvu

theorem Inv_foldl_relax (g : Graph) (hwf : g.WF) (start : Nat) (m : Nat)
    (l : List (Nat × ℚ)) (hl : ∀ e ∈ l, e ∈ g.adj m) :
    ∀ st : DState, Inv g start st → m ∈ st.visited → (g.Mem start → start ∈ st.visited) →
      Inv g start (l.foldl (relax m) st) := by
  induction l with
  | nil => intro st h _ _; exact h
  | cons e l ih =>
    intro st h hm hs
    rw [List.foldl_cons]
    apply ih (fun e' he' => hl e' (List.mem_cons_of_mem _ he'))
    · exact Inv_relax g hwf start st m e h hm hs (hl e (List.mem_cons_self _ _))
    · rw [relax_visited]; exact hm
    · rw [relax_visited]; exact hs

/-- One full iteration of the main loop keeps the structural invariant. -/
theorem Inv_iterate (g : Graph) (hwf : g.WF) (start : Nat) (st : DState) (m : Nat)
    (hinv : Inv g start st) (hmin : minVertex st.distances st.queue = some m) :
    Inv g start (relaxAll g (settle st m) m) := by
  obtain ⟨h1, h2⟩ := Inv_settle g start st m hinv hmin
  have hmv : m ∈ (settle st m).visited := by
    rw [settle_visited, List.insert_of_not_mem (hinv.min_not_visited hmin)]
    exact List.mem_cons_self _ _
  exact Inv_foldl_relax g hwf start m (g.adj m) (fun e he => he) _ h1 hmv h2

/-! ## The relaxation invariant -/

theorem RInv_init (R : Dist → Dist → Prop) (g : Graph) (start : Nat) :
    RInv R g (initState g start) := by
  rw [initState_eq]
  exact ⟨fun u hu => by simp at hu, fun u hu => by simp at hu⟩

theorem RInvIn_settle (R : Dist → Dist → Prop) (g : Graph) (hR : DistRel g R) (start : Nat)
    (st : DState) (m : Nat) (hinv : Inv g start st) (hr : RInv R g st)
    (hmin : minVertex st.distances st.queue = some m) :
    RInvIn R g m [] (settle st m) := by
  have hmq : m ∈ st.queue := minVertex_mem _ _ _ hmin
  have hvis : (settle st m).visited = m :: st.visited := by
    rw [settle_visited]; exact List.insert_of_not_mem (hinv.min_not_visited hmin)
  have hle := minVertex_le st m hinv.queue_dist_some hmin
  refine ⟨?_, ?_, ?_, ?_⟩
  · intro u hu hum e he
    rw [hvis] at hu
    rcases List.mem_cons.1 hu with h | h
    · exact absurd h hum
    · exact hr.edge u h e he
  · intro e he; simp at he
  · intro u hu q hq
    rw [hvis] at hu
    rw [settle_queue] at hq
    have hq' : q ∈ st.queue := List.mem_of_mem_erase hq
    rcases List.mem_cons.1 hu with h | h
    · rw [h]; exact hR.of_le _ _ (hle q hq')
    · exact hr.vis_le u h q hq'
  · intro u hu
    rw [hvis] at hu
    rcases List.mem_cons.1 hu with h | h
    · rw [h]; exact hR.refl _
    · exact hr.vis_le u h m hmq

theorem dist_update (st : DState) (x : Nat) (a : Dist) (p : Nat → Option Nat) (y : Nat) :
    ({ st with distances := setKey st.distances x a, previous := p } : DState).dist y
      = if y = x then a else st.dist y := by
  unfold DState.dist setKey
  by_cases h : y = x
  · simp [h]
  · simp [h]

theorem RInvIn_relax (R : Dist → Dist → Prop) (g : Graph) (hwf : g.WF) (hR : DistRel g R)
    (start : Nat) (st : DState) (m : Nat) (done : List (Nat × ℚ)) (e : Nat × ℚ)
    (hinv : Inv g start st) (hm : m ∈ st.visited) (he : e ∈ g.adj m)
    (hr : RInvIn R g m done st) : RInvIn R g m (done ++ [e]) (relax m st e) := by
  have hmV := hinv.visited_mem m hm
  have hxV := Graph.mem_of_mem_adj g hwf m e he
  rcases relax_cases st m e (hinv.dist_some m hmV) (hinv.dist_some e.1 hxV) with
    ⟨h, hc⟩ | ⟨hxv, hlt, h⟩
  · rw [h]
    refine ⟨hr.edge, ?_, hr.vis_le, hr.vis_cur⟩
    intro e' he'
    rcases List.mem_append.1 he' with h' | h'
    · exact hr.edge_cur e' h'
    · simp only [List.mem_singleton] at h'
      subst h'
      rcases hc with hc | hc
      · exact hR.trans _ _ _ (hr.vis_cur _ hc) (hR.add_edge m _ he _)
      · exact hR.of_le _ _ hc
  · rw [h]
    have hd := dist_update st e.1 (st.dist m + (e.2 : Dist)) (setKey st.previous e.1 m)
    have hle : ∀ y, ({ st with
        distances := setKey st.distances e.1 (st.dist m + (e.2 : Dist))
        previous := setKey st.previous e.1 m } : DState).dist y ≤ st.dist y := by
      intro y
      rw [hd]
      split
      · rename_i hy; rw [hy]; exact le_of_lt hlt
      · exact le_refl _
    have hvis : ∀ u ∈ st.visited, ({ st with
        distances := setKey st.distances e.1 (st.dist m + (e.2 : Dist))
        previous := setKey st.previous e.1 m } : DState).dist u = st.dist u := by
      intro u hu
      rw [hd]
      have : u ≠ e.1 := fun h' => hxv (h' ▸ hu)
      simp [this]
    refine ⟨?_, ?_, ?_, ?_⟩
    · intro u hu hum e' he'
      rw [hvis u hu]
      exact hR.trans _ _ _ (hR.of_le _ _ (hle _)) (hr.edge u hu hum e' he')
    · intro e' he'
      rw [hvis m hm]
      rcases List.mem_append.1 he' with h' | h'
      · exact hR.trans _ _ _ (hR.of_le _ _ (hle _)) (hr.edge_cur e' h')
      · simp only [List.mem_singleton] at h'
        subst h'
        rw [hd]
        simp only [if_true]
        exact hR.refl _
    · intro u hu q hq
      rw [hvis u hu, hd]
      split
      · exact hR.trans _ _ _ (hr.vis_cur u hu) (hR.add_edge m _ he _)
      · exact hr.vis_le u hu q hq
    · intro u hu
      rw [hvis u hu, hvis m hm]
      exact hr.vis_cur u hu

theorem RInvIn_foldl_relax (R : Dist → Dist → Prop) (g : Graph) (hwf : g.WF) (hR : DistRel g R)
    (start : Nat) (m : Nat) (rem : List (Nat × ℚ)) (hl : ∀ e ∈ rem, e ∈ g.adj m) :
    ∀ (done : List (Nat × ℚ)) (st : DState), Inv g start st → m ∈ st.visited →
      (g.Mem start → start ∈ st.visited) → RInvIn R g m done st →
      RInvIn R g m (done ++ rem) (rem.foldl (relax m) st) := by
  induction rem with
  | nil => intro done st _ _ _ h; simpa using h
  | cons e rem ih =>
    intro done st hinv hm hs hr
    rw [List.foldl_cons]
    have he := hl e (List.mem_cons_self _ _)
    have := ih (fun e' he' => hl e' (List.mem_cons_of_mem _ he')) (done ++ [e]) (relax m st e)
      (Inv_relax g hwf start st m e hinv hm hs he) (by rw [relax_visited]; exact hm)
      (by rw [relax_visited]; exact hs) (RInvIn_relax R g hwf hR start st m done e hinv hm he hr)
    simpa using this

theorem RInv_of_RInvIn (R : Dist → Dist → Prop) (g : Graph) (st : DState) (m : Nat)
    (hr : RInvIn R g m (g.adj m) st) : RInv R g st := by
  refine ⟨?_, hr.vis_le⟩
  intro u hu e he
  by_cases hum : u = m
  · rw [hum] at he ⊢
    exact hr.edge_cur e he
  · exact hr.edge u hu hum e he

/-- One full iteration of the main loop keeps the relaxation invariant. -/
theorem RInv_iterate (R : Dist → Dist → Prop) (g : Graph) (hwf : g.WF) (hR : DistRel g R)
    (start : Nat) (st : DState) (m : Nat) (hinv : Inv g start st) (hr : RInv R g st)
    (hmin : minVertex st.distances st.queue = some m) :
    RInv R g (relaxAll g (settle st m) m) := by
  obtain ⟨h1, h2⟩ := Inv_settle g start st m hinv hmin
  have hmv : m ∈ (settle st m).visited := by
    rw [settle_visited, List.insert_of_not_mem (hinv.min_not_visited hmin)]
    exact List.mem_cons_self _ _
  have := RInvIn_foldl_relax R g hwf hR start m (g.adj m) (fun e he => he) [] _ h1 hmv h2
    (RInvIn_settle R g hR start st m hinv hr hmin)
  exact RInv_of_RInvIn R g _ m (by simpa using this)

/-! ## The main loop -/

/-- Proof rule for the main loop: with fuel for every queued vertex the loop returns, and
it returns either with the queue empty or right after selecting the target. -/
theorem loop_rule (g : Graph) (endV : Nat) (P : DState → Prop)
    (hstep : ∀ st m, P st → minVertex st.distances st.queue = some m → m ≠ endV →
      P (relaxAll g (settle st m) m)) :
    ∀ (fuel : Nat) (st : DState), P st → st.queue.length ≤ fuel →
      ∃ r, loop g endV fuel st = some r ∧
        ((P r ∧ r.queue = []) ∨
          ∃ st', P st' ∧ minVertex st'.distances st'.queue = some endV ∧ r = settle st' endV) := by
  intro fuel
  induction fuel with
  | zero =>
    intro st hP hlen
    have hq : st.queue = [] := List.length_eq_zero.1 (Nat.le_zero.1 hlen)
    refine ⟨st, ?_, Or.inl ⟨hP, hq⟩⟩
    unfold loop
    rw [hq]
  | succ fuel ih =>
    intro st hP hlen
    unfold loop
    cases hmin : minVertex st.distances st.queue with
    | none =>
      exact ⟨st, rfl, Or.inl ⟨hP, minVertex_eq_none _ _ hmin⟩⟩
    | some m =>
      simp only
      by_cases hme : m = endV
      · rw [if_pos hme]
        refine ⟨_, rfl, Or.inr ⟨st, hP, ?_, ?_⟩⟩
        · rw [hmin, hme]
        · rw [hme]
      · rw [if_neg hme]
        apply ih _ (hstep st m hP hmin hme)
        rw [relaxAll_queue, settle_queue, List.length_erase_of_mem (minVertex_mem _ _ _ hmin)]
        omega

/-- For a target that is a vertex, the main loop ends by selecting the target; the state
in which it is selected satisfies both invariants. -/
theorem loop_exit (R : Dist → Dist → Prop) (g : Graph) (hwf : g.WF) (hR : DistRel g R)
    (start endV : Nat) (hb : g.Mem endV) :
    ∃ st, Inv g start st ∧ RInv R g st ∧ minVertex st.distances st.queue = some endV ∧
      loop g endV g.vertices.length (initState g start) = some (settle st endV) := by
  have hrule := loop_rule g endV (fun st => Inv g start st ∧ RInv R g st ∧ endV ∈ st.queue)
    (by
      intro st m ⟨h1, h2, h3⟩ hmin hme
      refine ⟨Inv_iterate g hwf start st m h1 hmin, RInv_iterate R g hwf hR start st m h1 h2 hmin,
        ?_⟩
      rw [relaxAll_queue, settle_queue]
      exact (List.mem_erase_of_ne (Ne.symm hme)).2 h3)
    g.vertices.length (initState g start)
    ⟨Inv_init g hwf start, RInv_init R g start, by rw [initState_eq]; exact hb⟩
    (by rw [initState_eq]; simp [Obj.keys])
  obtain ⟨r, hr, hcase⟩ := hrule
  rcases hcase with ⟨⟨_, _, hq⟩, hempty⟩ | ⟨st', ⟨h1, h2, _⟩, hmin, hrs⟩
  · rw [hempty] at hq; simp at hq
  · exact ⟨st', h1, h2, hmin, by rw [hr, hrs]⟩

/-! ## Walks -/

theorem Graph.IsWalk_iff_chain (g : Graph) (p : List Nat) :
    g.IsWalk p ↔ p.Chain' (fun u v => (g.weight u v).isSome = true) := by
  induction p with
  | nil => simp [Graph.IsWalk]
  | cons u p ih =>
    cases p with
    | nil => simp [Graph.IsWalk]
    | cons v rest =>
      rw [List.chain'_cons, ← ih]
      rfl

theorem Graph.IsWalk_singleton (g : Graph) (v : Nat) : g.IsWalk [v] := trivial

theorem Graph.IsWalk_snoc (g : Graph) (p : List Nat) (u v : Nat) (w : ℚ) (hp : g.IsWalk p)
    (hlast : p.getLast? = some u) (hw : g.weight u v = some w) : g.IsWalk (p ++ [v]) := by
  rw [Graph.IsWalk_iff_chain] at hp ⊢
  rw [List.chain'_append]
  refine ⟨hp, List.chain'_singleton v, ?_⟩
  intro x hx y hy
  rw [hlast] at hx
  simp only [Option.mem_def, Option.some.injEq] at hx
  simp only [List.head?_cons, Option.mem_def, Option.some.injEq] at hy
  rw [← hx, ← hy, hw]; rfl

theorem Graph.walkWeight_snoc (g : Graph) (p : List Nat) (u v : Nat) (w : ℚ)
    (hlast : p.getLast? = some u) (hw : g.weight u v = some w) :
    g.walkWeight (p ++ [v]) = g.walkWeight p + w := by
  induction p with
  | nil => simp at hlast
  | cons a p ih =>
    cases p with
    | nil =>
      simp only [List.getLast?_singleton, Option.some.injEq] at hlast
      subst hlast
      simp [Graph.walkWeight, hw]
    | cons b p =>
      have hl : (b :: p).getLast? = some u := by
        rw [List.getLast?_cons_cons] at hlast; exact hlast
      have := ih hl
      show (g.weight a b).getD 0 + g.walkWeight ((b :: p) ++ [v])
        = (g.weight a b).getD 0 + g.walkWeight (b :: p) + w
      rw [this]; ring

theorem head?_snoc_of_head? (p : List Nat) (a v : Nat) (h : p.head? = some a) :
    (p ++ [v]).head? = some a := by
  cases p with
  | nil => simp at h
  | cons x p => simpa using h

/-! ## Path reconstruction -/

theorem walkBack_none (prev : Nat → Option Nat) (fuel : Nat) (acc : List Nat) :
    walkBack prev fuel none acc = some acc := by
  cases fuel <;> rfl

theorem walkBack_succ (prev : Nat → Option Nat) (fuel : Nat) (c : Nat) (acc : List Nat) :
    walkBack prev (fuel + 1) (some c) acc = walkBack prev fuel (prev c) (c :: acc) := rfl

/-- The backward walk from a vertex of a visit list ends within as many steps as the list
is long; it yields a repetition-free sequence that ends at the vertex and, when the
distance of the vertex is finite, starts at the source, follows edges of the graph and has
the distance as its total weight. -/
theorem walkBack_spec (g : Graph) (start : Nat) (st : DState) (hinv : Inv g start st) :
    ∀ l : List Nat, VisOrder st.previous l → l.Nodup → (∀ v ∈ l, g.Mem v) → ∀ v ∈ l,
      ∃ p : List Nat,
        (∀ fuel acc, l.length ≤ fuel → walkBack st.previous fuel (some v) acc = some (p ++ acc)) ∧
        p.getLast? = some v ∧ p.Nodup ∧ (∀ x ∈ p, x ∈ l) ∧
        (∀ d : ℚ, st.distances v = some (d : Dist) →
          p.head? = some start ∧ g.IsWalk p ∧ g.walkWeight p = d) := by
  intro l
  induction l with
  | nil => intro _ _ _ v hv; simp at hv
  | cons m l ih =>
    intro hord hnd hmem v hv
    obtain ⟨hm1, hord'⟩ := hord
    obtain ⟨hml, hnd'⟩ := List.nodup_cons.1 hnd
    have hmem' : ∀ v ∈ l, g.Mem v := fun v hv => hmem v (List.mem_cons_of_mem _ hv)
    by_cases hvm : v = m
    · subst hvm
      cases hprev : st.previous v with
      | none =>
        refine ⟨[v], ?_, rfl, List.nodup_singleton v, ?_, ?_⟩
        · intro fuel acc hlen
          cases fuel with
          | zero => simp at hlen
          | succ f => rw [walkBack_succ, hprev, walkBack_none]; rfl
        · intro x hx
          simp only [List.mem_singleton] at hx
          rw [hx]; exact List.mem_cons_self _ _
        · intro d hd
          have h0 := hinv.prev_none v (hmem v (List.mem_cons_self _ _)) hprev
          rw [hd] at h0
          by_cases hvs : v = start
          · rw [if_pos hvs] at h0
            simp only [Option.some.injEq] at h0
            have hd0 : d = 0 := by exact_mod_cast h0
            refine ⟨by rw [hvs]; rfl, g.IsWalk_singleton v, ?_⟩
            rw [hd0]; rfl
          · rw [if_neg hvs] at h0
            simp at h0
      | some u =>
        have hul : u ∈ l := hm1 u hprev
        obtain ⟨p', hp1, hp2, hp3, hp4, hp5⟩ := ih hord' hnd' hmem' u hul
        refine ⟨p' ++ [v], ?_, by simp, ?_, ?_, ?_⟩
        · intro fuel acc hlen
          cases fuel with
          | zero => simp at hlen
          | succ f =>
            rw [walkBack_succ, hprev, hp1 f (v :: acc) (by simpa using hlen)]
            simp
        · rw [List.nodup_append]
          refine ⟨hp3, List.nodup_singleton v, ?_⟩
          intro x hx hx'
          simp only [List.mem_singleton] at hx'
          rw [hx'] at hx
          exact hml (hp4 v hx)
        · intro x hx
          rcases List.mem_append.1 hx with h | h
          · exact List.mem_cons_of_mem _ (hp4 x h)
          · simp only [List.mem_singleton] at h
            rw [h]; exact List.mem_cons_self _ _
        · intro d hd
          obtain ⟨w, du, hw, hdu, hdv⟩ := hinv.prev_edge v u hprev
          rw [hd] at hdv
          simp only [Option.some.injEq] at hdv
          have hdeq : d = du + w := by exact_mod_cast hdv
          obtain ⟨q1, q2, q3⟩ := hp5 du hdu
          refine ⟨head?_snoc_of_head? p' start v q1, g.IsWalk_snoc p' u v w q2 hp2 hw, ?_⟩
          rw [g.walkWeight_snoc p' u v w hp2 hw, q3, hdeq]
    · have hvl : v ∈ l := (List.mem_cons.1 hv).resolve_left hvm
      obtain ⟨p, hp1, hp2, hp3, hp4, hp5⟩ := ih hord' hnd' hmem' v hvl
      refine ⟨p, ?_, hp2, hp3, fun x hx => List.mem_cons_of_mem _ (hp4 x hx), hp5⟩
      intro fuel acc hlen
      exact hp1 fuel acc (by simp at hlen; omega)

/-! ## Lower bounds -/

theorem Graph.Reach_of_Joins (g : Graph) (p : List Nat) (a : Nat) :
    ∀ b, g.Joins p a b → g.Reach a b (g.walkWeight p) := by
  induction p using List.reverseRecOn with
  | nil => intro b h; simp [Graph.Joins] at h
  | append_singleton p v ih =>
    intro b ⟨hhead, hlast, hwalk⟩
    have hvb : v = b := by simpa using hlast
    subst hvb
    cases hp : p.getLast? with
    | none =>
      have hnil : p = [] := List.getLast?_eq_none_iff.1 hp
      subst hnil
      have hva : v = a := by simpa using hhead
      subst hva
      exact Graph.Reach.refl
    | some u =>
      have hne : p ≠ [] := by
        intro h; rw [h] at hp; simp at hp
      have hhead' : p.head? = some a := by
        cases p with
        | nil => exact absurd rfl hne
        | cons x p => simpa using hhead
      rw [Graph.IsWalk_iff_chain, List.chain'_append] at hwalk
      obtain ⟨hw1, _, hw3⟩ := hwalk
      rw [← Graph.IsWalk_iff_chain] at hw1
      have hedge := hw3 u (by rw [hp]; rfl) v (by simp)
      obtain ⟨w, hw⟩ := Option.isSome_iff_exists.1 hedge
      rw [g.walkWeight_snoc p u v w hp hw]
      exact Graph.Reach.step u v _ w (ih u ⟨hhead', hp, hw1⟩) hw

/-- The heart of the correctness argument: whatever walk leaves the source, a visited end
point is no farther than the walk is long, and an unvisited one leaves the selected
minimum no farther than that. -/
theorem lower_bound (R : Dist → Dist → Prop) (g : Graph) (hwf : g.WF) (hR : DistRel g R)
    (start : Nat) (st : DState) (m : Nat) (hinv : Inv g start st) (hr : RInv R g st)
    (hmin : minVertex st.distances st.queue = some m) (hs : g.Mem start) :
    ∀ v W, g.Reach start v W →
      (v ∈ st.visited → R (st.dist v) (W : Dist)) ∧ (v ∉ st.visited → R (st.dist m) (W : Dist)) := by
  have hle := minVertex_le st m hinv.queue_dist_some hmin
  have hmq : m ∈ st.queue := minVertex_mem _ _ _ hmin
  intro v W hreach
  induction hreach with
  | refl =>
    have h0 : st.dist start = ((0 : ℚ) : Dist) := by
      rw [dist_of_some st start _ (hinv.start_zero hs).1]; rfl
    refine ⟨fun _ => by rw [h0]; exact hR.refl _, fun hnv => ?_⟩
    have hq : start ∈ st.queue := (hinv.cover start hs).resolve_right hnv
    rw [← h0]
    exact hR.of_le _ _ (hle start hq)
  | step u v W w _ hw ih =>
    have he : (v, w) ∈ g.adj u := (Graph.mem_adj_iff g hwf u v w).2 hw
    have hvV : g.Mem v := Graph.mem_of_mem_adj g hwf u (v, w) he
    have hcoe : ((W + w : ℚ) : Dist) = (W : Dist) + (w : Dist) := rfl
    rw [hcoe]
    by_cases huv : u ∈ st.visited
    · have h1 : R (st.dist v) ((W : Dist) + (w : Dist)) :=
        hR.trans _ _ _ (hr.edge u huv (v, w) he) (hR.add_mono _ _ w (ih.1 huv))
      refine ⟨fun _ => h1, fun hnv => ?_⟩
      have hq : v ∈ st.queue := (hinv.cover v hvV).resolve_right hnv
      exact hR.trans _ _ _ (hR.of_le _ _ (hle v hq)) h1
    · have h1 : R (st.dist m) ((W : Dist) + (w : Dist)) :=
        hR.trans _ _ _ (ih.2 huv) (hR.add_edge u (v, w) he _)
      refine ⟨fun hv => ?_, fun _ => h1⟩
      exact hR.trans _ _ _ (hr.vis_le v hv m hmq) h1

/-! ## The result of `dijkstra` -/

/-- What `dijkstra(a, b)` returns for two vertices of a well-formed graph. -/
theorem dijkstra_exit (R : Dist → Dist → Prop) (g : Graph) (hwf : g.WF) (hR : DistRel g R)
    (a b : Nat) (hb : g.Mem b) :
    ∃ (st : DState) (path : List Nat),
      g.dijkstra a b = some ⟨st.distances b, path⟩ ∧
      (∃ d, st.distances b = some d) ∧
      path.getLast? = some b ∧ path.Nodup ∧ (∀ x ∈ path, g.Mem x) ∧
      (∀ d : ℚ, st.distances b = some (d : Dist) →
        path.head? = some a ∧ g.IsWalk path ∧ g.walkWeight path = d) ∧
      (g.Mem a → ∀ p, g.Joins p a b → R (st.dist b) ((g.walkWeight p : ℚ) : Dist)) := by
  obtain ⟨st, hinv, hr, hmin, hloop⟩ := loop_exit R g hwf hR a b hb
  obtain ⟨hinv', _⟩ := Inv_settle g a st b hinv hmin
  have hbv : b ∈ (settle st b).visited := by
    rw [settle_visited, List.insert_of_not_mem (hinv.min_not_visited hmin)]
    exact List.mem_cons_self _ _
  obtain ⟨p, hp1, hp2, hp3, hp4, hp5⟩ := walkBack_spec g a (settle st b) hinv'
    (settle st b).visited hinv'.prev_order hinv'.visited_nodup hinv'.visited_mem b hbv
  have hfuel : (settle st b).visited.length ≤ g.vertices.length + 1 := by
    have := hinv'.count
    omega
  have hwb := hp1 (g.vertices.length + 1) [] hfuel
  rw [List.append_nil] at hwb
  refine ⟨st, p, ?_, hinv.dist_some b hb, hp2, hp3,
    fun x hx => hinv'.visited_mem x (hp4 x hx), hp5, ?_⟩
  · unfold Graph.dijkstra
    rw [hloop]
    simp only
    rw [hwb]
    rfl
  · intro ha q hq
    have := (lower_bound R g hwf hR a st b hinv hr hmin ha b _ (g.Reach_of_Joins q a b hq)).2
      (hinv.min_not_visited hmin)
    exact this

/-! ## The two orders on distances -/

theorem DistRel_le (g : Graph) (hpos : g.Pos) : DistRel g (fun x y => x ≤ y) := by
  refine ⟨fun x => le_refl x, fun x y z => le_trans, fun x y h => h, ?_, ?_⟩
  · intro u e he x
    have h0 : (0 : Dist) ≤ (e.2 : Dist) := by
      have := le_of_lt (Graph.pos_of_mem_adj g hpos u e he)
      exact_mod_cast this
    exact le_add_of_nonneg_right h0
  · intro x y w h
    exact add_le_add_right h _

theorem DistRel_fin (g : Graph) : DistRel g finRel := by
  refine ⟨fun x h => h, fun x y z hxy hyz h => hxy (hyz h), ?_, ?_, ?_⟩
  · intro x y hle hy hx
    rw [hx] at hle
    exact hy (top_le_iff.1 hle)
  · intro u e _ x h hx
    rw [hx] at h
    simp at h
  · intro x y w h hy hx
    have hy' : y ≠ ⊤ := fun hy' => hy (by rw [hy']; simp)
    have hx' := h hy'
    rcases WithTop.add_eq_top.1 hx with h1 | h1
    · exact hx' h1
    · exact WithTop.coe_ne_top h1

/-- With positive weights, `dijkstra(a, b)` on two joined vertices returns a finite
distance together with a path realising it, and no path from `a` to `b` is lighter. -/
theorem dijkstra_pos (g : Graph) (hwf : g.WF) (hpos : g.Pos) (a b : Nat) (ha : g.Mem a)
    (hb : g.Mem b) (hjoin : ∃ p, g.Joins p a b) :
    ∃ (path : List Nat) (d : ℚ),
      g.dijkstra a b = some ⟨some (d : Dist), path⟩ ∧
      g.Joins path a b ∧ path.Nodup ∧ g.walkWeight path = d ∧
      (∀ p, g.Joins p a b → d ≤ g.walkWeight p) := by
  obtain ⟨st, path, h1, ⟨d0, h2⟩, h3, h4, _, h6, h7⟩ :=
    dijkstra_exit (fun x y => x ≤ y) g hwf (DistRel_le g hpos) a b hb
  obtain ⟨p0, hp0⟩ := hjoin
  have hle0 := h7 ha p0 hp0
  rw [dist_of_some st b d0 h2] at hle0
  have hfin : d0 ≠ ⊤ := by
    intro h
    rw [h] at hle0
    exact WithTop.coe_ne_top (top_le_iff.1 hle0)
  obtain ⟨d, hd⟩ := WithTop.ne_top_iff_exists.1 hfin
  rw [← hd] at h2
  obtain ⟨q1, q2, q3⟩ := h6 d h2
  refine ⟨path, d, by rw [h1, h2], ⟨q1, h3, q2⟩, h4, q3, ?_⟩
  intro p hp
  have := h7 ha p hp
  rw [dist_of_some st b _ h2] at this
  exact_mod_cast this

/-- Whatever the weights, `dijkstra(a, b)` on two vertices returns, and its distance is
`Infinity` exactly when no path joins them. -/
theorem dijkstra_unreached_iff (g : Graph) (hwf : g.WF) (a b : Nat) (ha : g.Mem a)
    (hb : g.Mem b) :
    ∃ r, g.dijkstra a b = some r ∧ (∃ d, r.distance = some d) ∧
      (r.distance = some ⊤ ↔ ¬ ∃ p, g.Joins p a b) := by
  obtain ⟨st, path, h1, ⟨d0, h2⟩, h3, _, _, h6, h7⟩ :=
    dijkstra_exit finRel g hwf (DistRel_fin g) a b hb
  refine ⟨_, h1, ⟨d0, h2⟩, ?_⟩
  simp only
  constructor
  · intro htop ⟨p, hp⟩
    have := h7 ha p hp WithTop.coe_ne_top
    rw [dist_of_some st b d0 h2] at this
    rw [h2] at htop
    exact this (Option.some.inj htop)
  · intro hno
    by_contra hne
    rw [h2] at hne
    have hfin : d0 ≠ ⊤ := fun h => hne (by rw [h])
    obtain ⟨d, hd⟩ := WithTop.ne_top_iff_exists.1 hfin
    rw [← hd] at h2
    obtain ⟨q1, q2, _⟩ := h6 d h2
    exact hno ⟨path, q1, h3, q2⟩

/-- A start that is no vertex leaves every distance at `Infinity`. -/
theorem dijkstra_unknown_start (g : Graph) (hwf : g.WF) (a b : Nat) (ha : ¬ g.Mem a)
    (hb : g.Mem b) : ∃ path, g.dijkstra a b = some ⟨some ⊤, path⟩ := by
  obtain ⟨st, path, h1, ⟨d0, h2⟩, _, _, h5, h6, _⟩ :=
    dijkstra_exit finRel g hwf (DistRel_fin g) a b hb
  refine ⟨path, ?_⟩
  rw [h1, h2]
  by_cases hfin : d0 = ⊤
  · rw [hfin]
  · exfalso
    obtain ⟨d, hd⟩ := WithTop.ne_top_iff_exists.1 hfin
    rw [← hd] at h2
    obtain ⟨q1, _, _⟩ := h6 d h2
    cases path with
    | nil => simp at q1
    | cons x path =>
      simp only [List.head?_cons, Option.some.injEq] at q1
      exact ha (q1 ▸ h5 x (List.mem_cons_self _ _))

/-- A target that is no vertex is never selected: the loop runs until the queue is empty,
and the result is the `undefined` distance with the path that holds the target alone. -/
theorem dijkstra_unknown_end (g : Graph) (hwf : g.WF) (a b : Nat) (hb : ¬ g.Mem b) :
    g.dijkstra a b = some ⟨none, [b]⟩ := by
  have hrule := loop_rule g b (fun st => Inv g a st)
    (fun st m h hmin _ => Inv_iterate g hwf a st m h hmin)
    g.vertices.length (initState g a) (Inv_init g hwf a)
    (by rw [initState_eq]; simp [Obj.keys])
  obtain ⟨r, hr, hcase⟩ := hrule
  have hinv : Inv g a r := by
    rcases hcase with ⟨h, _⟩ | ⟨st', h, hmin, _⟩
    · exact h
    · exact absurd (h.queue_mem b (minVertex_mem _ _ _ hmin)) hb
  have hprev : r.previous b = none := by
    cases hp : r.previous b with
    | none => rfl
    | some u => exact absurd (hinv.prev_mem b u hp) hb
  unfold Graph.dijkstra
  rw [hr]
  simp only
  rw [walkBack_succ, hprev, walkBack_none, hinv.dist_none b hb]

/-- The model of `dijkstra` never runs out of fuel: on every constructed graph and for
every start and target it returns a result. -/
theorem dijkstra_total (g : Graph) (hwf : g.WF) (a b : Nat) : ∃ r, g.dijkstra a b = some r := by
  by_cases hb : g.Mem b
  · obtain ⟨st, path, h, _⟩ := dijkstra_exit finRel g hwf (DistRel_fin g) a b hb
    exact ⟨_, h⟩
  · exact ⟨_, dijkstra_unknown_end g hwf a b hb⟩

/-! ## Enumeration order of the vertex keys -/

theorem Obj.set_of_get_none {α : Type} (o : Obj α) (k : Nat) (v : α) (h : o.get k = none) :
    o.set k v = Obj.insertNew k v o := by
  unfold Obj.set
  rw [h]
  rfl

theorem Obj.insertNew_sorted {α : Type} (k : Nat) (v : α) (o : Obj α)
    (hall : ∀ x ∈ o.keys, isArrayIndex x = true) (hnot : k ∉ o.keys)
    (hs : o.keys.Pairwise (fun x y => x < y)) :
    (Obj.insertNew k v o).keys.Pairwise (fun x y => x < y) := by
  induction o with
  | nil => simp [Obj.insertNew, Obj.keys]
  | cons e o ih =>
    have hkeys : Obj.keys (e :: o) = e.1 :: Obj.keys o := rfl
    rw [hkeys] at hall hnot hs
    obtain ⟨hs1, hs2⟩ := List.pairwise_cons.1 hs
    have hke : k ≠ e.1 := fun h => hnot (h ▸ List.mem_cons_self _ _)
    have hko : k ∉ Obj.keys o := fun h => hnot (List.mem_cons_of_mem _ h)
    have he : isArrayIndex e.1 = true := hall e.1 (List.mem_cons_self _ _)
    unfold Obj.insertNew
    split
    · rename_i hc
      have hlt : k < e.1 := by
        rcases hc.2 with h | h
        · rw [he] at h; exact absurd h (by simp)
        · exact h
      show (k :: e.1 :: Obj.keys o).Pairwise (fun x y => x < y)
      refine List.pairwise_cons.2 ⟨?_, hs⟩
      intro x hx
      rcases List.mem_cons.1 hx with h | h
      · rw [h]; exact hlt
      · exact lt_trans hlt (hs1 x h)
    · rename_i hc
      show (e.1 :: Obj.keys (Obj.insertNew k v o)).Pairwise (fun x y => x < y)
      refine List.pairwise_cons.2 ⟨?_, ih (fun x hx => hall x (List.mem_cons_of_mem _ hx)) hko hs2⟩
      intro x hx
      rcases List.mem_cons.1 ((Obj.keys_insertNew_perm k v o).mem_iff.1 hx) with h | h
      · rw [h]
        by_contra hnlt
        have hlt : k < e.1 := by omega
        exact hc ⟨by
          by_contra hki
          -- a key that is no array index is never inserted here
          exact absurd hlt (by
            have : isArrayIndex k = false := by simpa using hki
            unfold isArrayIndex at this he
            simp only [decide_eq_false_iff_not, decide_eq_true_eq] at this he
            omega), Or.inr hlt⟩
      · exact hs1 x h

theorem Graph.SortedKeys_empty : Graph.empty.SortedKeys := by
  refine ⟨?_, ?_⟩
  · simp [Graph.empty, Obj.keys]
  · intro x hx; simp [Graph.empty, Obj.keys] at hx

theorem Graph.SortedKeys_addVertex (g : Graph) (x : Nat) (hx : isArrayIndex x = true)
    (h : g.SortedKeys) : (g.addVertex x).SortedKeys := by
  unfold Graph.addVertex
  cases hg : g.vertices.get x with
  | none =>
    simp only
    rw [Obj.set_of_get_none _ _ _ hg]
    refine ⟨Obj.insertNew_sorted x [] g.vertices h.2 ((Obj.get_eq_none_iff _ _).1 hg) h.1, ?_⟩
    intro y hy
    rcases List.mem_cons.1 ((Obj.keys_insertNew_perm x [] g.vertices).mem_iff.1 hy) with h' | h'
    · rw [h']; exact hx
    · exact h.2 y h'
  | some a => exact h

theorem Graph.SortedKeys_setWeight (g : Graph) (a b : Nat) (w : ℚ) (h : g.SortedKeys) :
    (g.setWeight a b w).SortedKeys := by
  unfold Graph.SortedKeys
  rw [Graph.keys_setWeight]
  exact h

theorem Graph.SortedKeys_build (ops : List Op)
    (hidx : ∀ op ∈ ops, ∀ k ∈ op.ids, isArrayIndex k = true) : (Graph.build ops).SortedKeys := by
  unfold Graph.build
  have : ∀ g : Graph, g.SortedKeys → (ops.foldl Graph.apply g).SortedKeys := by
    induction ops with
    | nil => intro g h; exact h
    | cons op ops ih =>
      intro g h
      rw [List.foldl_cons]
      apply ih (fun op' hop' => hidx op' (List.mem_cons_of_mem _ hop'))
      have hop := hidx op (List.mem_cons_self _ _)
      cases op with
      | addVertex v =>
        exact Graph.SortedKeys_addVertex g v (hop v (by simp [Op.ids])) h
      | addEdge u v w =>
        unfold Graph.apply Graph.addEdge
        apply Graph.SortedKeys_setWeight
        apply Graph.SortedKeys_setWeight
        apply Graph.SortedKeys_addVertex _ _ (hop v (by simp [Op.ids]))
        exact Graph.SortedKeys_addVertex _ _ (hop u (by simp [Op.ids])) h
  exact this _ Graph.SortedKeys_empty

/-! ## The states of the main loop -/

theorem iterState_inv (g : Graph) (hwf : g.WF) (start endV : Nat) :
    ∀ n st, iterState g start endV n = some st →
      Inv g start st ∧ st.queue.Sublist g.vertices.keys := by
  intro n
  induction n with
  | zero =>
    intro st h
    simp only [iterState, Option.some.injEq] at h
    rw [← h]
    refine ⟨Inv_init g hwf start, ?_⟩
    rw [initState_eq]
  | succ n ih =>
    intro st h
    simp only [iterState] at h
    cases hprev : iterState g start endV n with
    | none => rw [hprev] at h; simp at h
    | some st0 =>
      rw [hprev] at h
      simp only at h
      obtain ⟨hinv, hsub⟩ := ih st0 hprev
      cases hmin : minVertex st0.distances st0.queue with
      | none => rw [hmin] at h; simp at h
      | some m =>
        rw [hmin] at h
        simp only at h
        split at h
        · simp at h
        · simp only [Option.some.injEq] at h
          rw [← h]
          refine ⟨Inv_iterate g hwf start st0 m hinv hmin, ?_⟩
          rw [relaxAll_queue, settle_queue]
          exact (List.erase_sublist m st0.queue).trans hsub

theorem minVertex_first (st : DState) (m : Nat)
    (hdef : ∀ q ∈ st.queue, ∃ x, st.distances q = some x)
    (h : minVertex st.distances st.queue = some m) :
    ∀ l1 l2, st.queue = l1 ++ m :: l2 → m ∉ l1 → ∀ q ∈ l1, st.dist m < st.dist q := by
  cases hq : st.queue with
  | nil => rw [hq] at h; simp [minVertex] at h
  | cons v rest =>
    rw [hq] at h hdef
    simp only [minVertex, Option.some.injEq] at h
    rw [← h]
    exact (foldl_minStep_spec st rest v hdef).2

/-- In a state whose queue is in ascending key order, the selected vertex is the least key
among the queued vertices of least distance. -/
theorem minVertex_tie (g : Graph) (start : Nat) (st : DState) (m : Nat) (hinv : Inv g start st)
    (hsorted : st.queue.Pairwise (fun x y => x < y))
    (hmin : minVertex st.distances st.queue = some m) :
    ∀ v ∈ st.queue, st.dist m ≤ st.dist v ∧ (st.dist v = st.dist m → m ≤ v) := by
  intro v hv
  refine ⟨minVertex_le st m hinv.queue_dist_some hmin v hv, ?_⟩
  intro heq
  obtain ⟨l1, l2, hsplit⟩ := List.append_of_mem (minVertex_mem _ _ _ hmin)
  have hnd := hinv.queue_nodup
  rw [hsplit] at hnd hv hsorted
  have hm1 : m ∉ l1 := by
    intro hm1
    have := (List.nodup_append.1 hnd).2.2
    exact this hm1 (List.mem_cons_self _ _) 
  rcases List.mem_append.1 hv with h | h
  · have := minVertex_first st m hinv.queue_dist_some hmin l1 l2 hsplit hm1 v h
    rw [heq] at this
    exact absurd this (lt_irrefl _)
  · rcases List.mem_cons.1 h with h | h
    · rw [h]
    · have := (List.pairwise_cons.1 (List.pairwise_append.1 hsorted).2.1).1 v h
      exact le_of_lt this

/-! ## buildGraph -/

theorem weight_foldl_addSegment (route : BusRoute) (a b : Nat) : ∀ (n : Nat) (g : Graph),
    ((∃ i, i < n ∧
        ((route.stops.getD i 0 = a ∧ route.stops.getD (i + 1) 0 = b) ∨
         (route.stops.getD i 0 = b ∧ route.stops.getD (i + 1) 0 = a))) →
      ((List.range n).foldl (addSegment route) g).weight a b = some route.segmentWeight) ∧
    ((¬ ∃ i, i < n ∧
        ((route.stops.getD i 0 = a ∧ route.stops.getD (i + 1) 0 = b) ∨
         (route.stops.getD i 0 = b ∧ route.stops.getD (i + 1) 0 = a))) →
      ((List.range n).foldl (addSegment route) g).weight a b = g.weight a b) := by
  intro n
  induction n with
  | zero =>
    intro g
    refine ⟨?_, fun _ => rfl⟩
    rintro ⟨i, hi, _⟩
    exact absurd hi (Nat.not_lt_zero i)
  | succ n ih =>
    intro g
    obtain ⟨ih1, ih2⟩ := ih g
    rw [List.range_succ, List.foldl_append, List.foldl_cons, List.foldl_nil]
    have hstep : ∀ G : Graph, (addSegment route G n).weight a b
        = if (a = route.stops.getD n 0 ∧ b = route.stops.getD (n + 1) 0) ∨
             (a = route.stops.getD (n + 1) 0 ∧ b = route.stops.getD n 0)
          then some route.segmentWeight else G.weight a b := by
      intro G
      unfold addSegment
      rw [Graph.weight_addEdge]
      rfl
    rw [hstep]
    by_cases hn : (a = route.stops.getD n 0 ∧ b = route.stops.getD (n + 1) 0) ∨
             (a = route.stops.getD (n + 1) 0 ∧ b = route.stops.getD n 0)
    · rw [if_pos hn]
      refine ⟨fun _ => rfl, fun hno => ?_⟩
      exfalso
      apply hno
      refine ⟨n, Nat.lt_succ_self n, ?_⟩
      rcases hn with ⟨h1, h2⟩ | ⟨h1, h2⟩
      · exact Or.inl ⟨h1.symm, h2.symm⟩
      · exact Or.inr ⟨h2.symm, h1.symm⟩
    · rw [if_neg hn]
      refine ⟨?_, ?_⟩
      · rintro ⟨i, hi, hm⟩
        apply ih1
        have hin : i ≠ n := by
          intro h
          subst h
          apply hn
          rcases hm with ⟨h1, h2⟩ | ⟨h1, h2⟩
          · exact Or.inl ⟨h1.symm, h2.symm⟩
          · exact Or.inr ⟨h2.symm, h1.symm⟩
        exact ⟨i, by omega, hm⟩
      · intro hno
        apply ih2
        rintro ⟨i, hi, hm⟩
        exact hno ⟨i, by omega, hm⟩

theorem HasSegment_iff (route : BusRoute) (a b : Nat) :
    route.HasSegment a b ↔ ∃ i, i < route.stops.length - 1 ∧
        ((route.stops.getD i 0 = a ∧ route.stops.getD (i + 1) 0 = b) ∨
         (route.stops.getD i 0 = b ∧ route.stops.getD (i + 1) 0 = a)) := by
  unfold BusRoute.HasSegment
  constructor
  · rintro ⟨i, hi, h⟩; exact ⟨i, by omega, h⟩
  · rintro ⟨i, hi, h⟩; exact ⟨i, by omega, h⟩

theorem weight_addRoute_of_hasSegment (g : Graph) (route : BusRoute) (a b : Nat)
    (h : route.HasSegment a b) : (addRoute g route).weight a b = some route.segmentWeight :=
  (weight_foldl_addSegment route a b _ g).1 ((HasSegment_iff route a b).1 h)

theorem weight_addRoute_of_not (g : Graph) (route : BusRoute) (a b : Nat)
    (h : ¬ route.HasSegment a b) : (addRoute g route).weight a b = g.weight a b :=
  (weight_foldl_addSegment route a b _ g).2 (fun h' => h ((HasSegment_iff route a b).2 h'))

theorem weight_foldl_addRoute_of_not (a b : Nat) (post : List BusRoute)
    (h : ∀ r ∈ post, ¬ r.HasSegment a b) :
    ∀ g : Graph, (post.foldl addRoute g).weight a b = g.weight a b := by
  induction post with
  | nil => intro g; rfl
  | cons r post ih =>
    intro g
    rw [List.foldl_cons, ih (fun r' hr' => h r' (List.mem_cons_of_mem _ hr')),
      weight_addRoute_of_not g r a b (h r (List.mem_cons_self _ _))]

/-- The weight `buildGraph` stores for a stop pair comes from the last line that has the
pair as a segment. -/
theorem weight_buildGraph_last (pre post : List BusRoute) (r : BusRoute) (a b : Nat)
    (hr : r.HasSegment a b) (hpost : ∀ r' ∈ post, ¬ r'.HasSegment a b) :
    (buildGraph (pre ++ r :: post)).weight a b = some r.segmentWeight := by
  unfold buildGraph
  rw [List.foldl_append, List.foldl_cons, weight_foldl_addRoute_of_not a b post hpost,
    weight_addRoute_of_hasSegment _ r a b hr]

/-! ## findRoute -/

/-- The two outcomes of `findRoute` once both stops are set and distinct. -/
theorem findRoute_searched (busStops : List Stop) (routes : List BusRoute) (s : UIState)
    (f t : Nat) (result : Result) (hf : s.fromStop = some f) (ht : s.toStop = some t)
    (hne : f ≠ t) (hres : (buildGraph routes).dijkstra f t = some result) :
    findRoute busStops routes s =
      if result.distance = some ⊤ then
        some { s with loading := false, error := "No route found between selected stops",
                      route := none }
      else
        some { s with
          loading := false
          error := ""
          route := some
            { stops := resolveStops busStops result.path
              duration := mathRound result.distance
              transfers := ((resolveStops busStops result.path).length : ℤ) - 2 } } := by
  unfold findRoute
  rw [hf, ht]
  simp only [hne, if_false, hres]

theorem mathRound_coe (q : ℚ) :
    mathRound (some (q : Dist)) = some ((⌊q + 1 / 2⌋ : ℤ) : WithTop ℤ) := rfl

/-! ## The properties of the specification -/

/-- The states `iterState` lists are the states the main loop passes through. -/
theorem loop_iterState (g : Graph) (start endV : Nat) :
    ∀ n st, iterState g start endV n = some st →
      ∀ fuel, loop g endV (n + fuel) (initState g start) = loop g endV fuel st := by
  intro n
  induction n with
  | zero =>
    intro st h fuel
    simp only [iterState, Option.some.injEq] at h
    rw [← h, Nat.zero_add]
  | succ n ih =>
    intro st h fuel
    simp only [iterState] at h
    cases hprev : iterState g start endV n with
    | none => rw [hprev] at h; simp at h
    | some st0 =>
      rw [hprev] at h
      simp only at h
      cases hmin : minVertex st0.distances st0.queue with
      | none => rw [hmin] at h; simp at h
      | some m =>
        rw [hmin] at h
        simp only at h
        by_cases hme : m = endV
        · rw [if_pos hme] at h; simp at h
        · rw [if_neg hme] at h
          simp only [Option.some.injEq] at h
          have := ih st0 hprev (fuel + 1)
          rw [Nat.add_assoc, Nat.add_comm 1 fuel, this]
          conv_lhs => unfold loop
          rw [hmin]
          simp only [hme, if_false]
          rw [h]

/-- C3, as the specification states it, fails: `addEdge` on a pair that already holds the
weight 12.5 with the new weight 17.5 stores 17.5, not the minimum 12.5, and `buildGraph`
on `mockRoutes` stores 17.5 for the pair (1, 2), which line "2" offers at 12.5. -/
theorem addEdge_not_keep_minimum :
    (Graph.empty.addEdge 1 2 (25 / 2)).weight 1 2 = some (25 / 2) ∧
    ((Graph.empty.addEdge 1 2 (25 / 2)).addEdge 1 2 (35 / 2)).weight 1 2
      ≠ some (min (25 / 2) (35 / 2)) ∧
    ((Graph.empty.addEdge 1 2 (25 / 2)).addEdge 1 2 (35 / 2)).weight 2 1
      ≠ some (min (25 / 2) (35 / 2)) ∧
    (buildGraph mockRoutes).weight 1 2 ≠ some (25 / 2) := by
  decide!

/-- C3, amended (last write wins). After `addEdge(u, v, w)` on any graph the weight stored
for `(u, v)` and for `(v, u)` is `w`, whatever was stored before; hence in the graph built
by `buildGraph` the weight of a stop pair is the per-segment weight of the last line that
contains the pair consecutively, and the pair (1, 2) of `mockRoutes` is stored as 17.5. -/
theorem addEdge_last_write_wins :
    (∀ (g : Graph) (u v : Nat) (w : ℚ),
      (g.addEdge u v w).weight u v = some w ∧ (g.addEdge u v w).weight v u = some w) ∧
    (∀ (pre post : List BusRoute) (r : BusRoute) (a b : Nat),
      r.HasSegment a b → (∀ r' ∈ post, ¬ r'.HasSegment a b) →
      (buildGraph (pre ++ r :: post)).weight a b = some r.segmentWeight) ∧
    (buildGraph mockRoutes).weight 1 2 = some (35 / 2) := by
  refine ⟨?_, ?_, by decide!⟩
  · intro g u v w
    rw [Graph.weight_addEdge, Graph.weight_addEdge]
    simp
  · intro pre post r a b hr hpost
    exact weight_buildGraph_last pre post r a b hr hpost

/-- Witness of amended C3: line "7" is the last of `mockRoutes` with the segment (1, 2). -/
theorem addEdge_last_write_wins_witness :
    (buildGraph mockRoutes).weight 1 2 = some (35 / 2 : ℚ) ∧
    (⟨"7", [1, 2, 5], 35⟩ : BusRoute).segmentWeight = 35 / 2 ∧
    (buildGraph ([⟨"2", [1, 2, 3], 25⟩, ⟨"3", [1, 3, 4], 30⟩] ++
        (⟨"7", [1, 2, 5], 35⟩ : BusRoute) ::
        [⟨"9", [1, 3, 6], 40⟩, ⟨"14", [1, 4, 7], 45⟩, ⟨"5", [3, 6, 9], 20⟩,
         ⟨"11", [4, 7, 8], 35⟩, ⟨"15", [2, 8, 10], 50⟩])).weight 1 2
      = some (⟨"7", [1, 2, 5], 35⟩ : BusRoute).segmentWeight :=
  ⟨addEdge_last_write_wins.2.2, by decide!,
    addEdge_last_write_wins.2.1 _ _ ⟨"7", [1, 2, 5], 35⟩ 1 2 ⟨0, by decide, Or.inl ⟨rfl, rfl⟩⟩
      (by
        intro r' hr' ⟨i, hi, hm⟩
        simp only [List.mem_cons, List.mem_singleton, List.not_mem_nil, or_false] at hr'
        rcases hr' with rfl | rfl | rfl | rfl | rfl
        all_goals
          simp only [List.length_cons, List.length_nil] at hi
          have hi' : i = 0 ∨ i = 1 := by omega
          rcases hi' with rfl | rfl <;> simp at hm)⟩

/-- C4, as the specification states it, fails: 9999 is the id of no catalog stop and 1 is
one, yet `findRoute` from 9999 to 1 ends with the no-route message, after the search. -/
theorem unknown_stop_not_rejected :
    (∀ stop ∈ mockBusStops, stop.id ≠ 9999) ∧ (∃ stop ∈ mockBusStops, stop.id = 1) ∧
    findRoute mockBusStops mockRoutes (freshState (some 9999) (some 1))
      = some ⟨some 9999, some 1, none, false, "No route found between selected stops"⟩ ∧
    (buildGraph mockRoutes).dijkstra 9999 1 = some ⟨some ⊤, [1]⟩ := by
  decide!

/-- C4, amended. For every pair of set ids in which `fromId` is the id of no catalog stop
and `toId` is the id of one, `findRoute` builds the graph, runs the search, which leaves the
target unreached, and ends with the no-route failure and no route; the code has no
unknown-stop outcome. -/
theorem unknown_from_yields_no_route (s : UIState) (f t : Nat) (hf : s.fromStop = some f)
    (ht : s.toStop = some t) (hfc : ∀ stop ∈ mockBusStops, stop.id ≠ f)
    (htc : ∃ stop ∈ mockBusStops, stop.id = t) :
    (∃ path, (buildGraph mockRoutes).dijkstra f t = some ⟨some ⊤, path⟩) ∧
    findRoute mockBusStops mockRoutes s
      = some { s with loading := false, error := "No route found between selected stops",
                      route := none } := by
  have hkeys : ∀ k ∈ (buildGraph mockRoutes).vertices.keys, ∃ stop ∈ mockBusStops, stop.id = k := by
    decide!
  have hcat : ∀ stop ∈ mockBusStops, stop.id ∈ (buildGraph mockRoutes).vertices.keys := by
    decide!
  have hfV : ¬ (buildGraph mockRoutes).Mem f := by
    intro h
    obtain ⟨stop, hs, hid⟩ := hkeys f h
    exact hfc stop hs hid
  have htV : (buildGraph mockRoutes).Mem t := by
    obtain ⟨stop, hs, hid⟩ := htc
    rw [← hid]
    exact hcat stop hs
  have hne : f ≠ t := fun h => hfV (h ▸ htV)
  obtain ⟨path, hres⟩ := dijkstra_unknown_start (buildGraph mockRoutes) (WF_buildGraph mockRoutes)
    f t hfV htV
  refine ⟨⟨path, hres⟩, ?_⟩
  rw [findRoute_searched mockBusStops mockRoutes s f t _ hf ht hne hres]
  simp

/-- Witness of amended C4: from id 9999 to stop 1. -/
theorem unknown_from_yields_no_route_witness :
    (∀ stop ∈ mockBusStops, stop.id ≠ 9999) ∧ (∃ stop ∈ mockBusStops, stop.id = 1) ∧
    (∃ path, (buildGraph mockRoutes).dijkstra 9999 1 = some ⟨some ⊤, path⟩) ∧
    findRoute mockBusStops mockRoutes (freshState (some 9999) (some 1))
      = some { freshState (some 9999) (some 1) with
          loading := false, error := "No route found between selected stops", route := none } :=
  ⟨by decide!, by decide!,
    unknown_from_yields_no_route (freshState (some 9999) (some 1)) 9999 1 rfl rfl (by decide!)
      (by decide!)⟩

/-- C6 (same-stop rejection). For every set stop id `x`, whatever the catalog and the lines
contain, `findRoute` with `x` as both stops ends with the same-stop failure; it changes
nothing else in the state, so it sets no route, and its result does not depend on the lines:
no graph is built or searched. -/
theorem same_stop_rejected (busStops : List Stop) (routes : List BusRoute) (s : UIState)
    (x : Nat) (hf : s.fromStop = some x) (ht : s.toStop = some x) :
    findRoute busStops routes s
      = some { s with error := "Departure and destination cannot be the same" } := by
  unfold findRoute
  rw [hf, ht]
  simp

/-- Witness of C6: stop 5 to stop 5 over the mock data. -/
theorem same_stop_rejected_witness :
    findRoute mockBusStops mockRoutes (freshState (some 5) (some 5))
      = some ⟨some 5, some 5, none, false, "Departure and destination cannot be the same"⟩ :=
  same_stop_rejected mockBusStops mockRoutes (freshState (some 5) (some 5)) 5 rfl rfl

/-- C7 (concrete scenario). In the network built from the line with stops [1, 2, 3] and
duration 25 and the line with stops [1, 3, 4] and duration 30, the stored weights are
(1, 2) = 12.5, (2, 3) = 12.5 and (1, 3) = 15, and the query from stop 1 to stop 3 returns
the path [1, 3] with distance 15: `findRoute` sets the route of the catalog stops 1 and 3
with duration 15 and transfer count 0. -/
theorem scenario_query :
    (buildGraph scenarioRoutes).weight 1 2 = some 12.5 ∧
    (buildGraph scenarioRoutes).weight 2 3 = some 12.5 ∧
    (buildGraph scenarioRoutes).weight 1 3 = some 15 ∧
    (buildGraph scenarioRoutes).dijkstra 1 3 = some ⟨some 15, [1, 3]⟩ ∧
    findRoute mockBusStops scenarioRoutes (freshState (some 1) (some 3))
      = some ⟨some 1, some 3,
          some ⟨[some ⟨1, "Trg Kralja Milana", 43.3209, 21.8958, ["1", "2", "3", "7", "11"]⟩,
                 some ⟨3, "Centar", 43.3181, 21.8945, ["1", "3", "5", "8"]⟩], some 15, 0⟩,
          false, ""⟩ := by
  decide!

/-- C8 (route assembly). Whenever `findRoute`, with both stops set and distinct, sets a route
from the result `(distance, path)` of `dijkstra`, the stops of the route are the catalog
records found for the ids of the path, in the same order, its duration is `Math.round` of
the distance, which for a finite distance is the nearest integer with halves going up, and
its transfer count is the number of stops minus 2. -/
theorem route_assembly (busStops : List Stop) (routes : List BusRoute) (s s' : UIState)
    (f t : Nat) (result : Result) (r : RouteInfo) (hf : s.fromStop = some f)
    (ht : s.toStop = some t) (hne : f ≠ t)
    (hres : (buildGraph routes).dijkstra f t = some result)
    (hs' : findRoute busStops routes s = some s') (hr : s'.route = some r) :
    r.stops = result.path.map (fun stopId => busStops.find? (fun stop => decide (stop.id = stopId))) ∧
    r.duration = mathRound result.distance ∧
    r.transfers = (r.stops.length : ℤ) - 2 ∧
    (∀ q : ℚ, result.distance = some (q : Dist) →
      ∃ n : ℤ, r.duration = some (n : WithTop ℤ) ∧ (n : ℚ) - 1 / 2 ≤ q ∧ q < (n : ℚ) + 1 / 2) := by
  rw [findRoute_searched busStops routes s f t result hf ht hne hres] at hs'
  by_cases htop : result.distance = some ⊤
  · rw [if_pos htop] at hs'
    simp only [Option.some.injEq] at hs'
    rw [← hs'] at hr
    simp at hr
  · rw [if_neg htop] at hs'
    simp only [Option.some.injEq] at hs'
    rw [← hs'] at hr
    simp only [Option.some.injEq] at hr
    rw [← hr]
    refine ⟨rfl, rfl, rfl, ?_⟩
    intro q hq
    refine ⟨⌊q + 1 / 2⌋, ?_, ?_, ?_⟩
    · simp only
      rw [hq]
      rfl
    · have := Int.floor_le (q + 1 / 2)
      linarith
    · have := Int.lt_floor_add_one (q + 1 / 2)
      linarith

/-- Witness of C8: the query from stop 1 to stop 4 over the scenario lines. -/
theorem route_assembly_witness :
    (buildGraph scenarioRoutes).dijkstra 1 4 = some ⟨some 30, [1, 3, 4]⟩ ∧
    ∃ r : RouteInfo,
      (findRoute mockBusStops scenarioRoutes (freshState (some 1) (some 4))).map
        (fun s' => s'.route) = some (some r) ∧
      r.stops = [1, 3, 4].map
        (fun stopId => mockBusStops.find? (fun stop => decide (stop.id = stopId))) ∧
      r.duration = mathRound (some 30) ∧ r.transfers = (r.stops.length : ℤ) - 2 :=
  ⟨by decide!,
    ⟨[some ⟨1, "Trg Kralja Milana", 43.3209, 21.8958, ["1", "2", "3", "7", "11"]⟩,
      some ⟨3, "Centar", 43.3181, 21.8945, ["1", "3", "5", "8"]⟩,
      some ⟨4, "Železnička stanica", 43.3167, 21.9069, ["4", "6", "9", "11"]⟩], some 30, 1⟩,
    by decide!,
    (route_assembly mockBusStops scenarioRoutes (freshState (some 1) (some 4))
      ⟨some 1, some 4,
        some ⟨[some ⟨1, "Trg Kralja Milana", 43.3209, 21.8958, ["1", "2", "3", "7", "11"]⟩,
          some ⟨3, "Centar", 43.3181, 21.8945, ["1", "3", "5", "8"]⟩,
          some ⟨4, "Železnička stanica", 43.3167, 21.9069, ["4", "6", "9", "11"]⟩], some 30, 1⟩,
        false, ""⟩
      1 4 ⟨some 30, [1, 3, 4]⟩ _ rfl rfl (by decide) (by decide!) (by decide!) rfl).1,
    by decide!, by decide!⟩

/-- C9, as the specification states it, fails. In the graph built by `addEdge(1, 4294967296,
5)` and `addEdge(1, 4294967295, 5)`, whose vertices are positive integers, the second
iteration of the search from 1 selects 4294967296 although the unvisited vertex 4294967295
has the same distance 5 and a lower id: keys from `2^32 - 1` on are enumerated in insertion
order. -/
theorem tie_break_fails_for_large_ids :
    (∀ op ∈ tieOps, ∀ k ∈ op.ids, 0 < k) ∧
    (Graph.build tieOps).vertices.keys = [1, 4294967296, 4294967295] ∧
    (iterState (Graph.build tieOps) 1 4294967295 1).map
      (fun st => (minVertex st.distances st.queue, st.distances 4294967296,
        st.distances 4294967295, st.visited, st.queue))
      = some (some 4294967296, some 5, some 5, [1], [4294967296, 4294967295]) :=
  ⟨by decide!, by decide!, by decide!⟩

/-- C9, amended. On a graph whose vertices are positive integer ids below `2^32 - 1`, in
every iteration of the main loop of `dijkstra` the vertex removed from the queue is an
unvisited vertex whose current distance is smallest among all unvisited vertices, and among
the unvisited vertices sharing that distance it is the one with the lowest numeric id. -/
theorem min_selection_tie_break (ops : List Op)
    (hidx : ∀ op ∈ ops, ∀ k ∈ op.ids, 0 < k ∧ k < 4294967295) (start endV n : Nat)
    (st : DState) (m : Nat) (hst : iterState (Graph.build ops) start endV n = some st)
    (hmin : minVertex st.distances st.queue = some m) :
    m ∈ st.queue ∧ (settle st m).queue = st.queue.erase m ∧
    (Graph.build ops).Mem m ∧ m ∉ st.visited ∧
    ∃ dm, st.distances m = some dm ∧
      ∀ v, (Graph.build ops).Mem v → v ∉ st.visited →
        ∃ dv, st.distances v = some dv ∧ dm ≤ dv ∧ (dv = dm → m ≤ v) := by
  obtain ⟨hinv, hsub⟩ := iterState_inv (Graph.build ops) (Graph.WF_build ops) start endV n st hst
  have hsorted : (Graph.build ops).SortedKeys := by
    apply Graph.SortedKeys_build
    intro op hop k hk
    have := (hidx op hop k hk).2
    unfold isArrayIndex
    exact decide_eq_true this
  have hq : st.queue.Pairwise (fun x y => x < y) := hsorted.1.sublist hsub
  have hmq : m ∈ st.queue := minVertex_mem _ _ _ hmin
  have hmV := hinv.queue_mem m hmq
  refine ⟨hmq, rfl, hmV, hinv.min_not_visited hmin, st.dist m,
    distances_eq_dist st m (hinv.dist_some m hmV), ?_⟩
  intro v hv hnv
  have hvq : v ∈ st.queue := (hinv.cover v hv).resolve_right hnv
  obtain ⟨h1, h2⟩ := minVertex_tie (Graph.build ops) start st m hinv hq hmin v hvq
  exact ⟨st.dist v, distances_eq_dist st v (hinv.dist_some v hv), h1, h2⟩

/-- Witness of amended C9: the first iteration of the search from 1 on the scenario
network. -/
theorem min_selection_tie_break_witness :
    (∀ op ∈ scenarioOps, ∀ k ∈ op.ids, 0 < k ∧ k < 4294967295) ∧
    minVertex (initState (Graph.build scenarioOps) 1).distances
      (initState (Graph.build scenarioOps) 1).queue = some 1 ∧
    ∃ dm, (initState (Graph.build scenarioOps) 1).distances 1 = some dm ∧
      ∀ v, (Graph.build scenarioOps).Mem v → v ∉ (initState (Graph.build scenarioOps) 1).visited →
        ∃ dv, (initState (Graph.build scenarioOps) 1).distances v = some dv ∧ dm ≤ dv ∧
          (dv = dm → 1 ≤ v) :=
  ⟨by decide!, by decide!,
    (min_selection_tie_break scenarioOps (by decide!) 1 3 0
      (initState (Graph.build scenarioOps) 1) 1 rfl (by decide!)).2.2.2.2⟩

end NisTransit
